import Mathlib

/-!
# go-metrics: the function tracer, its telemetry facade and the metric store

A shallow embedding of `src/metrics/function_tracer.go`, of
`src/metrics/telemetry/telemetry.go`, and of the metric store
(`src/metrics/metrictypes/metric.go`, `src/metrics/metrics.go`, `src/metrics/error`),
followed by theorems about them.

Modelling conventions.

* A Go `string` is a `List Char`.  `strings.Index(s, ")")` looks for a one-byte
  separator, so cutting at the first `)` gives the same two pieces whether positions
  are counted in bytes or in characters.
* Go's `int` is taken to be 64 bits wide, so `int(x)` for an `int64` value `x` is
  the identity; integers are `Int`.  The tracer only ever adds one elapsed value to `0`.
* `float64` is modelled by `ℚ`; rounding is not modelled.
* `map[string]FunctionTracerMetricsDTO` is an association list with at most one pair
  per key (`mapInsert` replaces the value of a key already present).
* `*FunctionTracerMetricsDTO` is an address into an explicit heap (a list of records;
  `&FunctionTracerMetricsDTO{...}` appends a record and yields its index).
* `sync.Mutex` is not modelled: every method is one atomic step on the tracer state.
* `time.Now().Sub(start).Milliseconds()` is an input of `IncreaseFunctionTracer`.
* `GetTree` is recursive without a bound in the source; the model takes fuel and
  returns `none` when the fuel is used up (or on a dangling address, which Go excludes).
* What the Go runtime reports to `FunctionName` (`runtime.Caller`, `runtime.FuncForPC`,
  `runtime.Stack` split by `strings.Fields`) is an input, and so is `json.Marshal`.
* An `interface{}` of the metric store is a `GoValue`; `int` arithmetic there wraps to
  64 bits; an `error` result is an `Option`, `none` for `nil`.
-/

namespace metrics

/-- Go strings. -/
abbrev GoString := List Char

/-- Addresses of heap-allocated `FunctionTracerMetricsDTO` records. -/
abbrev Ptr := Nat

/-- `strings.Index(s, string(c))` for a single character: the position of the first
occurrence, or `-1`. -/
def stringsIndex (s : GoString) (c : Char) : Int :=
  if s.indexOf c < s.length then (s.indexOf c : Int) else -1

/-- `math.MaxInt32`. -/
def MaxInt32 : Int := 2147483647

/-- Metrics DTO (`type FunctionTracerMetricsDTO struct`). -/
structure FunctionTracerMetricsDTO where
  Parent : GoString
  Function : GoString
  Calls : Int
  TotalTimeMs : Int
  AverageTimeMs : ℚ
  LowerCeiling : Int
  HigherCeiling : Int
  Children : List Ptr
deriving DecidableEq

/-- The heap of records reached through `*FunctionTracerMetricsDTO`. -/
abbrev Heap := List FunctionTracerMetricsDTO

/-- `type FunctionTracer struct`: the root name, the flat table, and the heap that
the table's `Children` slices point into. -/
structure FunctionTracer where
  root : GoString
  metrics : List (GoString × FunctionTracerMetricsDTO)
  heap : Heap
deriving DecidableEq

/-- Map read `m[k]` with the comma-ok form. -/
def mapLookup (m : List (GoString × FunctionTracerMetricsDTO)) (k : GoString) :
    Option FunctionTracerMetricsDTO :=
  match m with
  | [] => none
  | (k1, v1) :: rest => if k1 = k then some v1 else mapLookup rest k

/-- Map write `m[k] = v`. -/
def mapInsert (m : List (GoString × FunctionTracerMetricsDTO)) (k : GoString)
    (v : FunctionTracerMetricsDTO) : List (GoString × FunctionTracerMetricsDTO) :=
  match m with
  | [] => [(k, v)]
  | (k1, v1) :: rest => if k1 = k then (k, v) :: rest else (k1, v1) :: mapInsert rest k v

/-- The zero value of the struct, what `m[k]` yields for a missing key. -/
def zeroDTO : FunctionTracerMetricsDTO :=
  { Parent := [], Function := [], Calls := 0, TotalTimeMs := 0, AverageTimeMs := 0,
    LowerCeiling := 0, HigherCeiling := 0, Children := [] }

/-- `GetSuffix`: `functionName[strings.Index(functionName,")")+1:]`. -/
def GetSuffix (functionName : GoString) : GoString :=
  functionName.drop (stringsIndex functionName ')' + 1).toNat

/-- `GetName`: `functionName[:strings.Index(functionName,")")+1]`. -/
def GetName (functionName : GoString) : GoString :=
  functionName.take (stringsIndex functionName ')' + 1).toNat

/-- `NewFunctionTracer`: an empty table; `root` has its zero value. -/
def NewFunctionTracer : FunctionTracer :=
  { root := [], metrics := [], heap := [] }

/-- The record literal used three times in the source: counters at zero, the lower
ceiling at `math.MaxInt32`, no children. -/
def freshDTO (parent function : GoString) : FunctionTracerMetricsDTO :=
  { Parent := parent, Function := function, Calls := 0, TotalTimeMs := 0,
    AverageTimeMs := 0, LowerCeiling := MaxInt32, HigherCeiling := 0, Children := [] }

/-- The record `newFunctionMetrics` at the end of lines 116-137: the literal, then the
four updates in source order. -/
def newFunctionMetrics (parentFunctionName functionName : GoString) (functionTimeMs : Int) :
    FunctionTracerMetricsDTO :=
  let r0 := freshDTO parentFunctionName functionName
  let r1 := { r0 with Calls := r0.Calls + 1 }
  let r2 := { r1 with TotalTimeMs := r1.TotalTimeMs + functionTimeMs }
  let r3 := if functionTimeMs < r2.LowerCeiling then { r2 with LowerCeiling := functionTimeMs } else r2
  let r4 := if functionTimeMs > r3.HigherCeiling then { r3 with HigherCeiling := functionTimeMs } else r3
  r4

/-- `IncreaseFunctionTracer(parentFunction, functionName, start)`, with the elapsed
milliseconds `functionTimeMs` given instead of `start`. -/
def IncreaseFunctionTracer (ft : FunctionTracer) (parentFunction functionName : GoString)
    (functionTimeMs : Int) : FunctionTracer :=
  let parentFunctionName := GetName parentFunction
  let root1 :=
    if ft.metrics.length = 0 then ft.root ++ GetSuffix parentFunctionName else ft.root
  let metrics1 :=
    match mapLookup ft.metrics parentFunctionName with
    | some _ => ft.metrics
    | none => mapInsert ft.metrics parentFunctionName
        (freshDTO parentFunctionName parentFunctionName)
  let addr : Ptr := ft.heap.length
  let heap1 := ft.heap ++ [newFunctionMetrics parentFunctionName functionName functionTimeMs]
  let children := (mapLookup metrics1 parentFunctionName).getD zeroDTO
  let children1 := { children with Children := children.Children ++ [addr] }
  { root := root1, metrics := mapInsert metrics1 parentFunctionName children1, heap := heap1 }

/-- `getAverage`. -/
def getAverage (total count : Int) : ℚ :=
  if count ≤ 0 then 0 else (total : ℚ) / (count : ℚ)

/-- The assignment `p.Children = cs` through a pointer. -/
def setChildren (heap : Heap) (p : Ptr) (cs : List Ptr) : Heap :=
  match heap[p]? with
  | none => heap
  | some c => heap.set p { c with Children := cs }

/-- The `for _, metrics := range child.Children` loop of `GetTree`; `recur` is the
recursive call `ft.GetTree`, `functionChildren` the slice built so far. -/
def GetTreeLoop (ftRoot : GoString)
    (recur : Heap → GoString → GoString → Option (List Ptr × Heap))
    (functionCall : GoString) :
    List Ptr → List Ptr → Heap → Option (List Ptr × Heap)
  | [], functionChildren, heap => some (functionChildren, heap)
  | metrics :: rest, functionChildren, heap =>
    match heap[metrics]? with
    | none => none
    | some m =>
      let childInMap := GetName m.Function ++ GetSuffix m.Parent
      if functionCall = ftRoot ∨ GetSuffix m.Function = GetSuffix functionCall then
        match recur heap childInMap m.Function with
        | none => none
        | some (sub, heap1) =>
          GetTreeLoop ftRoot recur functionCall rest (functionChildren ++ [metrics])
            (setChildren heap1 metrics sub)
      else
        GetTreeLoop ftRoot recur functionCall rest functionChildren heap

/-- `GetTree(root, functionCall)` on the table `tbl` of a tracer whose root name is
`ftRoot`, threading the heap. -/
def GetTreeOn (ftRoot : GoString) (tbl : List (GoString × FunctionTracerMetricsDTO)) :
    Nat → Heap → GoString → GoString → Option (List Ptr × Heap)
  | 0, _, _, _ => none
  | fuel + 1, heap, root, functionCall =>
    match mapLookup tbl root with
    | none => some ([], heap)
    | some child =>
      GetTreeLoop ftRoot (GetTreeOn ftRoot tbl fuel) functionCall child.Children [] heap

/-- `ft.GetTree(root, functionCall)`: the slice of children and the tracer afterwards. -/
def GetTree (fuel : Nat) (ft : FunctionTracer) (root functionCall : GoString) :
    Option (List Ptr × FunctionTracer) :=
  (GetTreeOn ft.root ft.metrics fuel ft.heap root functionCall).map
    (fun r => (r.1, { ft with heap := r.2 }))

/-- The body of `GetFunctionTracerMetrics`: the value of `tree`, the value of the
local `functionTraceMetricsDTOSlice`, and the tracer afterwards. -/
def GetFunctionTracerMetricsLocals (fuel : Nat) (ft : FunctionTracer) :
    Option (FunctionTracerMetricsDTO × List FunctionTracerMetricsDTO × FunctionTracer) :=
  let tree := freshDTO ft.root ft.root
  match GetTree fuel ft ft.root ft.root with
  | none => none
  | some (cs, ft1) =>
    let tree1 := { tree with Children := cs }
    let functionTraceMetricsDTOSlice :=
      ft1.metrics.map (fun kv =>
        { kv.2 with AverageTimeMs := getAverage kv.2.TotalTimeMs kv.2.Calls })
    some (tree1, functionTraceMetricsDTOSlice, ft1)

/-- `GetFunctionTracerMetrics`: `return tree`; the slice is a local that is dropped. -/
def GetFunctionTracerMetrics (fuel : Nat) (ft : FunctionTracer) :
    Option (FunctionTracerMetricsDTO × FunctionTracer) :=
  (GetFunctionTracerMetricsLocals fuel ft).map (fun r => (r.1, r.2.2))

/-- `Clear`: delete every key of the map. -/
def Clear (ft : FunctionTracer) : FunctionTracer :=
  { ft with metrics := [] }

/-- `SetRoot`. -/
def SetRoot (ft : FunctionTracer) (root : GoString) : FunctionTracer :=
  { ft with root := root }

/-- `GetRoot`. -/
def GetRoot (ft : FunctionTracer) : GoString :=
  ft.root

/-! ### The tree a caller sees

`GetFunctionTracerMetrics` returns a struct whose `Children` are pointers.  What a
caller (for instance `json.Marshal`) observes is the tree obtained by following them. -/

/-- The value of a snapshot: a record with its children expanded. -/
inductive SnapshotTree where
  | node (Parent Function : GoString) (Calls TotalTimeMs : Int) (AverageTimeMs : ℚ)
      (LowerCeiling HigherCeiling : Int) (Children : List SnapshotTree)

namespace SnapshotTree

/-- Field `Parent`. -/
def Parent : SnapshotTree → GoString
  | node p _ _ _ _ _ _ _ => p

/-- Field `Function`. -/
def Function : SnapshotTree → GoString
  | node _ f _ _ _ _ _ _ => f

/-- Field `Calls`. -/
def Calls : SnapshotTree → Int
  | node _ _ c _ _ _ _ _ => c

/-- Field `TotalTimeMs`. -/
def TotalTimeMs : SnapshotTree → Int
  | node _ _ _ t _ _ _ _ => t

/-- Field `AverageTimeMs`. -/
def AverageTimeMs : SnapshotTree → ℚ
  | node _ _ _ _ a _ _ _ => a

/-- Field `LowerCeiling`. -/
def LowerCeiling : SnapshotTree → Int
  | node _ _ _ _ _ l _ _ => l

/-- Field `HigherCeiling`. -/
def HigherCeiling : SnapshotTree → Int
  | node _ _ _ _ _ _ h _ => h

/-- Field `Children`. -/
def Children : SnapshotTree → List SnapshotTree
  | node _ _ _ _ _ _ _ cs => cs

mutual
/-- Every node of a tree: the tree itself first, then the nodes of its children. -/
def nodes : SnapshotTree → List SnapshotTree
  | node p f c t a l h cs => node p f c t a l h cs :: nodesOfList cs
/-- Every node of a list of trees. -/
def nodesOfList : List SnapshotTree → List SnapshotTree
  | [] => []
  | t :: ts => nodes t ++ nodesOfList ts
end

end SnapshotTree

/-- The node showing record `m` with the expanded children `cs`. -/
def nodeOf (m : FunctionTracerMetricsDTO) (cs : List SnapshotTree) : SnapshotTree :=
  .node m.Parent m.Function m.Calls m.TotalTimeMs m.AverageTimeMs m.LowerCeiling
    m.HigherCeiling cs

/-- Apply a fallible function to every element, failing if one application fails. -/
def optionMapList {α β : Type} (f : α → Option β) : List α → Option (List β)
  | [] => some []
  | a :: as =>
    match f a with
    | none => none
    | some b =>
      match optionMapList f as with
      | none => none
      | some bs => some (b :: bs)

/-- Follow the `Children` pointers of `d` in `heap`, at most `fuel` levels deep. -/
def render : Nat → Heap → FunctionTracerMetricsDTO → Option SnapshotTree
  | 0, _, _ => none
  | fuel + 1, heap, d =>
    (optionMapList
      (fun p => match heap[p]? with
        | none => none
        | some c => render fuel heap c) d.Children).map (nodeOf d)

/-- The tree returned by `GetFunctionTracerMetrics`, as the caller sees it right after
the call, and the tracer afterwards. -/
def snapshot (fuel : Nat) (ft : FunctionTracer) : Option (SnapshotTree × FunctionTracer) :=
  match GetFunctionTracerMetrics fuel ft with
  | none => none
  | some (d, ft1) => (render fuel ft1.heap d).map (fun t => (t, ft1))

/-- Run a sequence of observations `(parentFunction, functionName, functionTimeMs)`. -/
def observeAll (ft : FunctionTracer) (obs : List (GoString × GoString × Int)) :
    FunctionTracer :=
  obs.foldl (fun s o => IncreaseFunctionTracer s o.1 o.2.1 o.2.2) ft

/-- The record made for one observation. -/
def recordOf (o : GoString × GoString × Int) : FunctionTracerMetricsDTO :=
  newFunctionMetrics (GetName o.1) o.2.1 o.2.2

/-- The records a table entry's `Children` slice points to, in slice order. -/
def childRecords (ft : FunctionTracer) (key : GoString) : List FunctionTracerMetricsDTO :=
  match mapLookup ft.metrics key with
  | none => []
  | some child => child.Children.filterMap (fun p => ft.heap[p]?)

/-- Every address stored in the table is allocated. -/
def PointersValid (ft : FunctionTracer) : Prop :=
  ∀ k child, mapLookup ft.metrics k = some child → ∀ p ∈ child.Children, p < ft.heap.length

/-! ### What `GetTree` computes, stated without the heap writes

`GetTree` reads the fields `Function` and `Parent` of the records and writes only
`Children`.  The definitions below describe its result from the part of the heap it
never writes; they are used to state and prove properties of `GetTree`, which is proved
to agree with them. -/

/-- A record with `Children` blanked. -/
def stripChildren (c : FunctionTracerMetricsDTO) : FunctionTracerMetricsDTO :=
  { c with Children := [] }

/-- The heap with every `Children` blanked: the part `GetTree` never writes. -/
def skel (heap : Heap) : Heap :=
  heap.map stripChildren

/-- The key `childInMap` of line 159. -/
def childInMap (m : FunctionTracerMetricsDTO) : GoString :=
  GetName m.Function ++ GetSuffix m.Parent

/-- The test of line 160 on the record `m`. -/
def included (ftRoot functionCall : GoString) (m : FunctionTracerMetricsDTO) : Bool :=
  decide (functionCall = ftRoot ∨ GetSuffix m.Function = GetSuffix functionCall)

/-- The test of line 160 on the record at address `p`. -/
def keeps (ftRoot : GoString) (heap : Heap) (functionCall : GoString) (p : Ptr) : Bool :=
  match heap[p]? with
  | none => false
  | some m => included ftRoot functionCall m

/-- The addresses of `cs` that pass the test of line 160, in order. -/
def keptChildren (ftRoot : GoString) (heap : Heap) (functionCall : GoString)
    (cs : List Ptr) : List Ptr :=
  cs.filter (keeps ftRoot heap functionCall)

/-- The slice `GetTree(key, functionCall)` returns when it returns. -/
def kids (ftRoot : GoString) (tbl : List (GoString × FunctionTracerMetricsDTO)) (heap : Heap)
    (key functionCall : GoString) : List Ptr :=
  match mapLookup tbl key with
  | none => []
  | some child => keptChildren ftRoot heap functionCall child.Children

/-- The slice `GetTree` assigns to the `Children` of the record at `p`. -/
def canonKids (ftRoot : GoString) (tbl : List (GoString × FunctionTracerMetricsDTO))
    (heap : Heap) (p : Ptr) : List Ptr :=
  match heap[p]? with
  | none => []
  | some m => kids ftRoot tbl heap (childInMap m) m.Function

/-- The record at `p` and everything below it, fewer than `n` levels deep, holds the
`Children` that `GetTree` assigns. -/
def DoneN (ftRoot : GoString) (tbl : List (GoString × FunctionTracerMetricsDTO)) :
    Nat → Heap → Ptr → Prop
  | 0, _, _ => False
  | n + 1, heap, p =>
    ∃ c, heap[p]? = some c ∧ c.Children = canonKids ftRoot tbl heap p ∧
      ∀ q ∈ canonKids ftRoot tbl heap p, DoneN ftRoot tbl n heap q

/-- Heap `h2` comes from `h` by assignments `p.Children = canonKids p`. -/
def Upd (ftRoot : GoString) (tbl : List (GoString × FunctionTracerMetricsDTO))
    (h h2 : Heap) : Prop :=
  skel h2 = skel h ∧
    ∀ p c2, h2[p]? = some c2 → h[p]? = some c2 ∨ c2.Children = canonKids ftRoot tbl h p

/-- The expanded children of `GetTree(key, functionCall)`, computed without writing:
the kept children of the entry under `key`, each with the expanded result of the
recursive call as its children. -/
def pureKids (ftRoot : GoString) (tbl : List (GoString × FunctionTracerMetricsDTO))
    (heap : Heap) : Nat → GoString → GoString → Option (List SnapshotTree)
  | 0, _, _ => none
  | n + 1, key, functionCall =>
    optionMapList
      (fun p => match heap[p]? with
        | none => none
        | some m => (pureKids ftRoot tbl heap n (childInMap m) m.Function).map (nodeOf m))
      (kids ftRoot tbl heap key functionCall)

/-- What `recur` must satisfy for the loop of `GetTree` to be correct at depth `n`. -/
def Sound (ftRoot : GoString) (tbl : List (GoString × FunctionTracerMetricsDTO)) (n : Nat)
    (recur : Heap → GoString → GoString → Option (List Ptr × Heap)) : Prop :=
  ∀ h key call ps h1, recur h key call = some (ps, h1) →
    ps = kids ftRoot tbl h key call ∧ Upd ftRoot tbl h h1 ∧
      ∀ p ∈ ps, DoneN ftRoot tbl n h1 p

/-- The shape of the table: every entry is the container made when its key was first
seen as a parent, with only its `Children` grown; its key is a name cut by `GetName`; and
its children are allocated records whose `Parent` is the key. -/
def TableShape (ft : FunctionTracer) : Prop :=
  ∀ k v, mapLookup ft.metrics k = some v →
    v = { freshDTO k k with Children := v.Children } ∧ GetName k = k ∧
      ∀ p ∈ v.Children, ∃ m, ft.heap[p]? = some m ∧ m.Parent = k

/-- A node without its children. -/
def SnapshotTree.withoutChildren : SnapshotTree → SnapshotTree
  | .node p f c t a l h _ => .node p f c t a l h []

/-! ### Concrete tracer states used to exercise the theorems -/

/-- A tracer with root `r()` and an empty table. -/
def tracerFresh : FunctionTracer :=
  SetRoot NewFunctionTracer "r()".toList

/-- One observation: `r()` called `A()` in trace `T`, 10 ms. -/
def tracerOneCall : FunctionTracer :=
  IncreaseFunctionTracer tracerFresh "r()T".toList "A()T".toList 10

/-- Two traces `T1` and `T2` that called the same functions `A()` and `B()`. -/
def tracerTwoTraces : FunctionTracer :=
  observeAll tracerFresh
    [("A()T1".toList, "B()T1".toList, 5), ("r()T1".toList, "A()T1".toList, 10),
     ("A()T2".toList, "B()T2".toList, 7), ("r()T2".toList, "A()T2".toList, 20)]

/-- The root called `A()` twice in trace `T`; the first of the two calls called `B()`. -/
def tracerCalledTwice : FunctionTracer :=
  observeAll tracerFresh
    [("A()T".toList, "B()T".toList, 5), ("r()T".toList, "A()T".toList, 10),
     ("r()T".toList, "A()T".toList, 12)]

/-- The snapshot of `tracerCalledTwice`. -/
def tracerCalledTwiceSnapshot : SnapshotTree :=
  .node "r()".toList "r()".toList 0 0 0 MaxInt32 0
    [.node "r()".toList "A()T".toList 1 10 0 10 10
       [.node "A()".toList "B()T".toList 1 5 0 5 5 []],
     .node "r()".toList "A()T".toList 1 12 0 12 12
       [.node "A()".toList "B()T".toList 1 5 0 5 5 []]]

/-- The observation "the root called `A()`" of trace `T`, with elapsed value `a`. -/
def observationA (T : GoString) (a : Int) : GoString × GoString × Int :=
  ("r()".toList ++ T, "A()".toList ++ T, a)

/-- The observation "`A()` called `B()`" of trace `T`, with elapsed value `d`. -/
def observationB (T : GoString) (d : Int) : GoString × GoString × Int :=
  ("A()".toList ++ T, "B()".toList ++ T, d)

/-- The snapshot of `tracerTwoTraces`. -/
def tracerTwoTracesSnapshot : SnapshotTree :=
  .node "r()".toList "r()".toList 0 0 0 MaxInt32 0
    [.node "r()".toList "A()T1".toList 1 10 0 10 10
       [.node "A()".toList "B()T1".toList 1 5 0 5 5 []],
     .node "r()".toList "A()T2".toList 1 20 0 20 20
       [.node "A()".toList "B()T2".toList 1 7 0 7 7 []]]

/-- The tracer states reachable from `NewFunctionTracer` by calls of its methods. -/
inductive Reachable : FunctionTracer → Prop where
  | new : Reachable NewFunctionTracer
  | setRoot (ft : FunctionTracer) (root : GoString) :
      Reachable ft → Reachable (SetRoot ft root)
  | increase (ft : FunctionTracer) (parentFunction functionName : GoString)
      (functionTimeMs : Int) :
      Reachable ft → Reachable (IncreaseFunctionTracer ft parentFunction functionName functionTimeMs)
  | clear (ft : FunctionTracer) : Reachable ft → Reachable (Clear ft)
  | getMetrics (ft ft1 : FunctionTracer) (fuel : Nat) (d : FunctionTracerMetricsDTO) :
      Reachable ft → GetFunctionTracerMetrics fuel ft = some (d, ft1) → Reachable ft1

/-- The slice `GetTree(root, functionCall)` returns, as the caller sees it right after
the call: every returned pointer followed into the heap. -/
def GetTreeExpanded (fuel : Nat) (ft : FunctionTracer) (root functionCall : GoString) :
    Option (List SnapshotTree) :=
  match GetTree fuel ft root functionCall with
  | none => none
  | some (cs, ft1) =>
    optionMapList
      (fun p => match ft1.heap[p]? with
        | none => none
        | some c => render (fuel - 1) ft1.heap c) cs

/-- A recursive call in trace `T`: the root called `A()`, and `A()` called `A()`. -/
def tracerRecursive : FunctionTracer :=
  observeAll tracerFresh
    [("A()T".toList, "A()T".toList, 3), ("r()T".toList, "A()T".toList, 10)]

end metrics

set_option linter.dupNamespace false

namespace telemetry

/-- `type Context struct`. -/
structure Context where
  ParentFunctionName : metrics.GoString
  FunctionName : metrics.GoString
  CallID : metrics.GoString
deriving DecidableEq

/-- Telemetry object (`type telemetry struct`); `functionTracer` is the tracer it owns. -/
structure telemetry where
  enabled : Bool
  functionTracer : metrics.FunctionTracer
deriving DecidableEq

/-- `NewTelemetry`. -/
def NewTelemetry : telemetry :=
  { enabled := false, functionTracer := metrics.NewFunctionTracer }

/-- `(t *telemetry) Enable`. -/
def telemetry.Enable (t : telemetry) : telemetry :=
  { t with enabled := true }

/-- `(t *telemetry) Disable`: `t.enabled = false`, then `t.functionTracer.Clear()`. -/
def telemetry.Disable (t : telemetry) : telemetry :=
  let t1 := { t with enabled := false }
  { t1 with functionTracer := metrics.Clear t1.functionTracer }

/-- `(t *telemetry) Clear`. -/
def telemetry.Clear (t : telemetry) : telemetry :=
  { t with functionTracer := metrics.Clear t.functionTracer }

/-- `(t *telemetry) IsEnabled`. -/
def telemetry.IsEnabled (t : telemetry) : Bool :=
  t.enabled

/-- `(t *telemetry) SetRoot`. -/
def telemetry.SetRoot (t : telemetry) (root : metrics.GoString) : telemetry :=
  { t with functionTracer := metrics.SetRoot t.functionTracer root }

/-- `(t *telemetry) GetRoot`. -/
def telemetry.GetRoot (t : telemetry) : metrics.GoString :=
  metrics.GetRoot t.functionTracer

/-- `(t *telemetry) IncreaseFunctionTracer(context, start)`, with the elapsed
milliseconds given instead of `start`. -/
def telemetry.IncreaseFunctionTracer (t : telemetry) (context : Context)
    (functionTimeMs : Int) : telemetry :=
  let functionTracer1 := metrics.IncreaseFunctionTracer t.functionTracer
    context.ParentFunctionName context.FunctionName functionTimeMs
  { t with functionTracer := functionTracer1 }

/-- What the Go runtime reports at a call site of `FunctionName`: the name
`runtime.FuncForPC(counter).Name()` of the function two frames up, the `ok` result of
`runtime.Caller`, and `strings.Fields` of the goroutine's `runtime.Stack` dump. -/
structure CallSite where
  funcName : metrics.GoString
  success : Bool
  stackFields : List metrics.GoString
deriving DecidableEq

/-- `getFunctionName(skips)` at the call site `site`. -/
def getFunctionName (site : CallSite) : metrics.GoString :=
  let functionName := site.funcName ++ "()".toList
  if site.success then functionName else "N/A".toList

/-- `FunctionName(context)` at the call site `site`; `none` is the index-out-of-range
panic of `parentFunctionSlice[len(parentFunctionSlice)-1]` on an empty slice. -/
def FunctionName (site : CallSite) (context : Context) : Option Context :=
  let newContext : Context :=
    { ParentFunctionName := context.FunctionName
      FunctionName := getFunctionName site
      CallID := context.CallID }
  let newContext1 : Option Context :=
    if context.CallID = [] then
      match site.stackFields.getLast? with
      | none => none
      | some last => some { newContext with CallID := last }
    else some newContext
  newContext1.map (fun c =>
    let cut := (metrics.stringsIndex c.ParentFunctionName ')' + 1).toNat
    let c1 := { c with ParentFunctionName := c.ParentFunctionName.take cut ++ c.CallID }
    { c1 with FunctionName := c1.FunctionName ++ c1.CallID })

/-- Derive contexts along a chain of call sites, each inside the previous one. -/
def deriveChain : List CallSite → Context → Option (List Context)
  | [], _ => some []
  | site :: rest, context =>
    match FunctionName site context with
    | none => none
    | some c =>
      match deriveChain rest c with
      | none => none
      | some cs => some (c :: cs)

/-- The payload returned when `json.Marshal` fails. -/
def marshalErrorPayload : metrics.GoString :=
  "\x7b\"error\": \"Could not marshal the telemetry metrics\"\x7d".toList

/-- The last five lines of `GetMetricsJSON`: the marshalled string, or the error
payload when `json.Marshal` fails. -/
def marshalOrError (jsonMarshal : metrics.SnapshotTree → Option metrics.GoString)
    (functionTracerMetrics : metrics.SnapshotTree) : metrics.GoString :=
  match jsonMarshal functionTracerMetrics with
  | none => marshalErrorPayload
  | some telemetryMetricsJSON => telemetryMetricsJSON

/-- `(t *telemetry) GetMetricsJSON()` in a process whose package variable
`globalTelemetry` holds `globalTelemetry`; `jsonMarshal` stands for `json.Marshal` on the
returned struct (`none` for an error).  The result is the string and the global object
afterwards; the body reads `globalTelemetry.functionTracer`, not `t.functionTracer`. -/
def telemetry.GetMetricsJSON (_t : telemetry)
    (jsonMarshal : metrics.SnapshotTree → Option metrics.GoString)
    (fuel : Nat) (globalTelemetry : telemetry) : Option (metrics.GoString × telemetry) :=
  match metrics.snapshot fuel globalTelemetry.functionTracer with
  | none => none
  | some (functionTracerMetrics, ft1) =>
    some (marshalOrError jsonMarshal functionTracerMetrics,
      { globalTelemetry with functionTracer := ft1 })

/-- A call site inside the method `pkg.(*RowGetter).GetRows`. -/
def siteGetRows : CallSite :=
  { funcName := "pkg.(*RowGetter).GetRows".toList, success := true,
    stackFields := ["goroutine".toList, "1".toList, "+0x1d".toList] }

/-- A call site inside the function `main.taskB`. -/
def siteTaskB : CallSite :=
  { funcName := "main.taskB".toList, success := true,
    stackFields := ["goroutine".toList, "1".toList, "+0x2e".toList] }

/-- The seed context built by `main`. -/
def seedContext : Context :=
  { ParentFunctionName := [], FunctionName := "main.main()".toList, CallID := [] }

/-- A context of the trace `+0x1d`, derived inside `main.taskA`. -/
def tracedContext : Context :=
  { ParentFunctionName := "main.main()+0x1d".toList,
    FunctionName := "main.taskA()+0x1d".toList, CallID := "+0x1d".toList }

/-- A telemetry object of its own that recorded one call. -/
def telemetryOneCall : telemetry :=
  { enabled := true, functionTracer := metrics.tracerOneCall }

end telemetry

namespace errWrap

/-- The error types of package `error` (imported as `errWrap`). -/
inductive Error where
  | MetricNotFound (MetricName : metrics.GoString)
  | CounterNotFound (CounterName : metrics.GoString)
  | MetricInvalidType (MetricName MetricType : metrics.GoString)
  | MetricInvalidOperation (MetricName MetricType MetricOperation : metrics.GoString)
deriving DecidableEq

end errWrap

namespace metric_types

/-- The dynamic values an `interface{}` holds in the metric store: `nil`, the four types
the store switches on, and a value of any other Go type (tagged by a number). -/
inductive GoValue where
  | nil
  | int (v : Int)
  | float64 (v : ℚ)
  | string (v : metrics.GoString)
  | time (unixNano : Int)
  | other (tag : Nat)
deriving DecidableEq

/-- Two's-complement wrap to 64 bits: the result of `int` arithmetic. -/
def wrapInt (x : Int) : Int :=
  (x + 9223372036854775808) % 18446744073709551616 - 9223372036854775808

/-- Constant `integerStr`. -/
def integerStr : metrics.GoString := "Int".toList

/-- Constant `floatStr`. -/
def floatStr : metrics.GoString := "Float64".toList

/-- Constant `timeStr`. -/
def timeStr : metrics.GoString := "Time".toList

/-- Constant `stringStr`. -/
def stringStr : metrics.GoString := "String".toList

/-- Constant `incMetricFnName`. -/
def incMetricFnName : metrics.GoString := "IncreaseMetric".toList

/-- Constant `decMetricFnName`. -/
def decMetricFnName : metrics.GoString := "DecreaseMetric".toList

/-- `MetricSet`: the map from metric name to value, as an association list with at most
one pair per name. -/
structure MetricSet where
  metrics : List (metrics.GoString × GoValue)
deriving DecidableEq

/-- Map read `m[k]` with the comma-ok form. -/
def mapGet (m : List (metrics.GoString × GoValue)) (k : metrics.GoString) : Option GoValue :=
  match m with
  | [] => none
  | (k1, v1) :: rest => if k1 = k then some v1 else mapGet rest k

/-- Map write `m[k] = v`. -/
def mapSet (m : List (metrics.GoString × GoValue)) (k : metrics.GoString) (v : GoValue) :
    List (metrics.GoString × GoValue) :=
  match m with
  | [] => [(k, v)]
  | (k1, v1) :: rest => if k1 = k then (k, v) :: rest else (k1, v1) :: mapSet rest k v

/-- `NewMetricSet`. -/
def NewMetricSet : MetricSet :=
  { metrics := [] }

/-- `AddMetric`. -/
def MetricSet.AddMetric (c : MetricSet) (metricName : metrics.GoString) (value : GoValue) :
    MetricSet :=
  { metrics := mapSet c.metrics metricName value }

/-- `DeleteMetric`. -/
def MetricSet.DeleteMetric (c : MetricSet) (metricName : metrics.GoString) : MetricSet :=
  { metrics := c.metrics.filter (fun kv => kv.1 ≠ metricName) }

/-- `IncreaseMetric`: the error (`none` for `nil`) and the set afterwards. -/
def MetricSet.IncreaseMetric (c : MetricSet) (metricName : metrics.GoString)
    (increment : GoValue) : Option errWrap.Error × MetricSet :=
  match mapGet c.metrics metricName with
  | none => (some (.MetricNotFound metricName), c)
  | some (.int metricValue) =>
    match increment with
    | .int incValue =>
      (none, { metrics := mapSet c.metrics metricName (.int (wrapInt (metricValue + incValue))) })
    | _ => (some (.MetricInvalidType metricName integerStr), c)
  | some (.float64 metricValue) =>
    match increment with
    | .float64 incValue =>
      (none, { metrics := mapSet c.metrics metricName (.float64 (metricValue + incValue)) })
    | _ => (some (.MetricInvalidType metricName floatStr), c)
  | some (.string metricValue) =>
    match increment with
    | .string incValue =>
      (none, { metrics := mapSet c.metrics metricName (.string (metricValue ++ incValue)) })
    | _ => (some (.MetricInvalidType metricName stringStr), c)
  | some (.time _) => (some (.MetricInvalidOperation metricName timeStr incMetricFnName), c)
  | some _ => (some (.MetricNotFound metricName), c)

/-- `DecreaseMetric`: the error (`none` for `nil`) and the set afterwards. -/
def MetricSet.DecreaseMetric (c : MetricSet) (metricName : metrics.GoString)
    (decrement : GoValue) : Option errWrap.Error × MetricSet :=
  match mapGet c.metrics metricName with
  | none => (some (.MetricNotFound metricName), c)
  | some (.int metricValue) =>
    match decrement with
    | .int decValue =>
      (none, { metrics := mapSet c.metrics metricName (.int (wrapInt (metricValue - decValue))) })
    | _ => (some (.MetricInvalidType metricName integerStr), c)
  | some (.float64 metricValue) =>
    match decrement with
    | .float64 decValue =>
      (none, { metrics := mapSet c.metrics metricName (.float64 (metricValue - decValue)) })
    | _ => (some (.MetricInvalidType metricName floatStr), c)
  | some (.string _) => (some (.MetricInvalidOperation metricName stringStr decMetricFnName), c)
  | some (.time _) => (some (.MetricInvalidOperation metricName timeStr decMetricFnName), c)
  | some _ => (some (.MetricNotFound metricName), c)

/-- `ResetMetric`. -/
def MetricSet.ResetMetric (c : MetricSet) (metricName : metrics.GoString) :
    Option errWrap.Error × MetricSet :=
  match mapGet c.metrics metricName with
  | none => (some (.MetricNotFound metricName), c)
  | some _ => (none, { metrics := mapSet c.metrics metricName .nil })

/-- `GetMetricValue`: the value (`nil` on error) and the error. -/
def MetricSet.GetMetricValue (c : MetricSet) (metricName : metrics.GoString) :
    GoValue × Option errWrap.Error :=
  match mapGet c.metrics metricName with
  | none => (.nil, some (.MetricNotFound metricName))
  | some v => (v, none)

/-- `SetMetricValue`. -/
def MetricSet.SetMetricValue (c : MetricSet) (metricName : metrics.GoString)
    (value : GoValue) : Option errWrap.Error × MetricSet :=
  match mapGet c.metrics metricName with
  | none => (some (.MetricNotFound metricName), c)
  | some _ => (none, { metrics := mapSet c.metrics metricName value })

end metric_types

namespace metrics

/-- `type Metrics struct` of `metrics.go`; its mutex is not modelled. -/
structure Metrics where
  metricData : metric_types.MetricSet
deriving DecidableEq

/-- `NewMetrics(metrics)`: every pair of the given map is added. -/
def NewMetrics (metrics : List (GoString × metric_types.GoValue)) : Metrics :=
  { metricData := metrics.foldl (fun s kv => s.AddMetric kv.1 kv.2) metric_types.NewMetricSet }

/-- `Metrics.IncreaseMetricValue`. -/
def Metrics.IncreaseMetricValue (metric : Metrics) (metricName : GoString)
    (increment : metric_types.GoValue) : Option errWrap.Error × Metrics :=
  let r := metric.metricData.IncreaseMetric metricName increment
  (r.1, { metricData := r.2 })

/-- `Metrics.DecreaseMetricValue`. -/
def Metrics.DecreaseMetricValue (metric : Metrics) (metricName : GoString)
    (decrement : metric_types.GoValue) : Option errWrap.Error × Metrics :=
  let r := metric.metricData.DecreaseMetric metricName decrement
  (r.1, { metricData := r.2 })

/-- `Metrics.ReadMetric`. -/
def Metrics.ReadMetric (metric : Metrics) (metricName : GoString) :
    metric_types.GoValue × Option errWrap.Error :=
  metric.metricData.GetMetricValue metricName

/-- `Metrics.SetMetric`. -/
def Metrics.SetMetric (metric : Metrics) (metricName : GoString)
    (value : metric_types.GoValue) : Option errWrap.Error × Metrics :=
  let r := metric.metricData.SetMetricValue metricName value
  (r.1, { metricData := r.2 })

/-- `Metrics.ResetMetric`. -/
def Metrics.ResetMetric (metric : Metrics) (metricName : GoString) :
    Option errWrap.Error × Metrics :=
  let r := metric.metricData.ResetMetric metricName
  (r.1, { metricData := r.2 })

end metrics

namespace metrics

/-! ### Strings -/

theorem stringsIndex_of_not_mem (s : GoString) (c : Char) (h : c ∉ s) :
    stringsIndex s c = -1 := by
  unfold stringsIndex
  have : ¬ (List.indexOf c s < s.length) := by
    rw [List.indexOf_lt_length]; exact h
  simp [this]

theorem stringsIndex_append_cons (a b : GoString) (c : Char) (h : c ∉ a) :
    stringsIndex (a ++ c :: b) c = a.length := by
  unfold stringsIndex
  have h1 : List.indexOf c (a ++ c :: b) = a.length := by
    rw [List.indexOf_append_of_not_mem h]; simp
  rw [h1]; simp

theorem exists_first_split (s : GoString) (c : Char) (h : c ∈ s) :
    ∃ a b, s = a ++ c :: b ∧ c ∉ a := by
  induction s with
  | nil => simp at h
  | cons x xs ih =>
    by_cases hx : x = c
    · exact ⟨[], xs, by simp [hx], by simp⟩
    · have hmem : c ∈ xs := by
        rcases List.mem_cons.1 h with h1 | h1
        · exact absurd h1.symm hx
        · exact h1
      obtain ⟨a, b, hab, hna⟩ := ih hmem
      refine ⟨x :: a, b, by simp [hab], ?_⟩
      simp only [List.mem_cons, not_or]
      exact ⟨fun h2 => hx h2.symm, hna⟩

theorem GetName_append_cons (a b : GoString) (h : ')' ∉ a) :
    GetName (a ++ ')' :: b) = a ++ [')'] := by
  unfold GetName
  rw [stringsIndex_append_cons a b ')' h]
  have : ((a.length : Int) + 1).toNat = a.length + 1 := by omega
  rw [this, List.take_append_eq_append_take]
  simp

theorem GetSuffix_append_cons (a b : GoString) (h : ')' ∉ a) :
    GetSuffix (a ++ ')' :: b) = b := by
  unfold GetSuffix
  rw [stringsIndex_append_cons a b ')' h]
  have : ((a.length : Int) + 1).toNat = a.length + 1 := by omega
  rw [this, List.drop_append_eq_append_drop]
  simp

theorem GetName_of_not_mem (s : GoString) (h : ')' ∉ s) : GetName s = [] := by
  unfold GetName
  rw [stringsIndex_of_not_mem s ')' h]
  simp

theorem GetSuffix_of_not_mem (s : GoString) (h : ')' ∉ s) : GetSuffix s = s := by
  unfold GetSuffix
  rw [stringsIndex_of_not_mem s ')' h]
  simp

theorem GetName_append_GetSuffix (s : GoString) : GetName s ++ GetSuffix s = s := by
  unfold GetName GetSuffix
  exact List.take_append_drop _ _

theorem GetSuffix_GetName (s : GoString) : GetSuffix (GetName s) = [] := by
  by_cases h : ')' ∈ s
  · obtain ⟨a, b, hab, hna⟩ := exists_first_split s ')' h
    rw [hab, GetName_append_cons a b hna]
    have := GetSuffix_append_cons a [] hna
    simpa using this
  · rw [GetName_of_not_mem s h]
    exact GetSuffix_of_not_mem [] (by simp)

theorem GetName_GetName (s : GoString) : GetName (GetName s) = GetName s := by
  have h := GetName_append_GetSuffix (GetName s)
  rw [GetSuffix_GetName] at h
  simpa using h

theorem GetName_append_right (n t : GoString) (h : ')' ∈ n) :
    GetName (n ++ t) = GetName n := by
  obtain ⟨a, b, hab, hna⟩ := exists_first_split n ')' h
  rw [hab, GetName_append_cons a b hna]
  have : a ++ ')' :: b ++ t = a ++ ')' :: (b ++ t) := by simp
  rw [this, GetName_append_cons a (b ++ t) hna]

/-! ### The table -/

theorem mapLookup_mapInsert_self (m : List (GoString × FunctionTracerMetricsDTO))
    (k : GoString) (v : FunctionTracerMetricsDTO) :
    mapLookup (mapInsert m k v) k = some v := by
  induction m with
  | nil => simp [mapInsert, mapLookup]
  | cons kv rest ih =>
    obtain ⟨k1, v1⟩ := kv
    by_cases h : k1 = k
    · simp [mapInsert, mapLookup, h]
    · simp [mapInsert, mapLookup, h, ih]

theorem mapLookup_mapInsert_ne (m : List (GoString × FunctionTracerMetricsDTO))
    (k k2 : GoString) (v : FunctionTracerMetricsDTO) (hne : k2 ≠ k) :
    mapLookup (mapInsert m k v) k2 = mapLookup m k2 := by
  induction m with
  | nil =>
    have : ¬ k = k2 := fun h => hne h.symm
    simp [mapInsert, mapLookup, this]
  | cons kv rest ih =>
    obtain ⟨k1, v1⟩ := kv
    by_cases h : k1 = k
    · have h2 : ¬ k = k2 := fun h3 => hne h3.symm
      have h3 : ¬ k1 = k2 := fun h4 => hne (h4.symm.trans h)
      simp [mapInsert, mapLookup, h, h2]
    · by_cases h6 : k1 = k2
      · subst h6
        simp [mapInsert, mapLookup, h]
      · simp [mapInsert, mapLookup, h, h6, ih]

/-! ### One observation -/

/-- The table entry that an observation under `k` appends to. -/
theorem IncreaseFunctionTracer_heap (ft : FunctionTracer) (p f : GoString) (e : Int) :
    (IncreaseFunctionTracer ft p f e).heap
      = ft.heap ++ [newFunctionMetrics (GetName p) f e] := rfl

theorem IncreaseFunctionTracer_root (ft : FunctionTracer) (p f : GoString) (e : Int) :
    (IncreaseFunctionTracer ft p f e).root = ft.root := by
  unfold IncreaseFunctionTracer
  simp [GetSuffix_GetName]

theorem IncreaseFunctionTracer_lookup_self (ft : FunctionTracer) (p f : GoString) (e : Int) :
    mapLookup (IncreaseFunctionTracer ft p f e).metrics (GetName p)
      = some { (mapLookup ft.metrics (GetName p)).getD (freshDTO (GetName p) (GetName p)) with
          Children := ((mapLookup ft.metrics (GetName p)).getD
            (freshDTO (GetName p) (GetName p))).Children ++ [ft.heap.length] } := by
  unfold IncreaseFunctionTracer
  simp only [mapLookup_mapInsert_self]
  cases h : mapLookup ft.metrics (GetName p) with
  | none => simp [mapLookup_mapInsert_self]
  | some v => simp [h]

theorem IncreaseFunctionTracer_lookup_ne (ft : FunctionTracer) (p f k : GoString) (e : Int)
    (hne : k ≠ GetName p) :
    mapLookup (IncreaseFunctionTracer ft p f e).metrics k = mapLookup ft.metrics k := by
  unfold IncreaseFunctionTracer
  simp only []
  rw [mapLookup_mapInsert_ne _ _ _ _ hne]
  cases h : mapLookup ft.metrics (GetName p) with
  | none => simp [mapLookup_mapInsert_ne _ _ _ _ hne]
  | some v => simp

theorem PointersValid_NewFunctionTracer : PointersValid NewFunctionTracer := by
  intro k child h
  simp [NewFunctionTracer, mapLookup] at h

theorem PointersValid_SetRoot (ft : FunctionTracer) (r : GoString) (hv : PointersValid ft) :
    PointersValid (SetRoot ft r) := hv

theorem PointersValid_Clear (ft : FunctionTracer) : PointersValid (Clear ft) := by
  intro k child h
  simp [Clear, mapLookup] at h

theorem PointersValid_IncreaseFunctionTracer (ft : FunctionTracer) (p f : GoString) (e : Int)
    (hv : PointersValid ft) : PointersValid (IncreaseFunctionTracer ft p f e) := by
  intro k child h q hq
  rw [IncreaseFunctionTracer_heap]
  simp only [List.length_append, List.length_singleton]
  by_cases hk : k = GetName p
  · subst hk
    rw [IncreaseFunctionTracer_lookup_self] at h
    injection h with h
    subst h
    simp only [List.mem_append, List.mem_singleton] at hq
    rcases hq with hq | hq
    · cases h2 : mapLookup ft.metrics (GetName p) with
      | none => simp [h2, freshDTO] at hq
      | some v =>
        simp only [h2, Option.getD_some] at hq
        exact Nat.lt_succ_of_lt (hv _ _ h2 q hq)
    · rw [hq]; exact Nat.lt_succ_self _
  · rw [IncreaseFunctionTracer_lookup_ne _ _ _ _ _ hk] at h
    exact Nat.lt_succ_of_lt (hv _ _ h q hq)

theorem filterMap_heap_append (heap : Heap) (x : FunctionTracerMetricsDTO) (ps : List Ptr)
    (h : ∀ q ∈ ps, q < heap.length) :
    ps.filterMap (fun q => (heap ++ [x])[q]?) = ps.filterMap (fun q => heap[q]?) := by
  induction ps with
  | nil => rfl
  | cons a as ih =>
    have ha : a < heap.length := h a (by simp)
    have has : ∀ q ∈ as, q < heap.length := fun q hq => h q (by simp [hq])
    simp only [List.filterMap_cons, List.getElem?_append_left ha, ih has]

theorem childRecords_IncreaseFunctionTracer_self (ft : FunctionTracer) (p f : GoString)
    (e : Int) (hv : PointersValid ft) :
    childRecords (IncreaseFunctionTracer ft p f e) (GetName p)
      = childRecords ft (GetName p) ++ [newFunctionMetrics (GetName p) f e] := by
  unfold childRecords
  rw [IncreaseFunctionTracer_lookup_self, IncreaseFunctionTracer_heap]
  cases h2 : mapLookup ft.metrics (GetName p) with
  | none => simp [freshDTO]
  | some v =>
    simp only [Option.getD_some, List.filterMap_append]
    rw [filterMap_heap_append _ _ _ (hv _ _ h2)]
    simp

theorem childRecords_IncreaseFunctionTracer_ne (ft : FunctionTracer) (p f k : GoString)
    (e : Int) (hv : PointersValid ft) (hne : k ≠ GetName p) :
    childRecords (IncreaseFunctionTracer ft p f e) k = childRecords ft k := by
  unfold childRecords
  rw [IncreaseFunctionTracer_lookup_ne _ _ _ _ _ hne, IncreaseFunctionTracer_heap]
  cases h2 : mapLookup ft.metrics k with
  | none => rfl
  | some v => exact filterMap_heap_append _ _ _ (hv _ _ h2)

theorem observeAll_cons (ft : FunctionTracer) (o : GoString × GoString × Int)
    (obs : List (GoString × GoString × Int)) :
    observeAll ft (o :: obs) = observeAll (IncreaseFunctionTracer ft o.1 o.2.1 o.2.2) obs := rfl

theorem observeAll_append (ft : FunctionTracer) (xs ys : List (GoString × GoString × Int)) :
    observeAll ft (xs ++ ys) = observeAll (observeAll ft xs) ys := by
  simp [observeAll, List.foldl_append]

theorem PointersValid_observeAll (obs : List (GoString × GoString × Int)) :
    ∀ ft : FunctionTracer, PointersValid ft → PointersValid (observeAll ft obs) := by
  induction obs with
  | nil => intro ft hv; exact hv
  | cons o obs ih =>
    intro ft hv
    rw [observeAll_cons]
    exact ih _ (PointersValid_IncreaseFunctionTracer ft _ _ _ hv)

theorem observeAll_root (obs : List (GoString × GoString × Int)) :
    ∀ ft : FunctionTracer, (observeAll ft obs).root = ft.root := by
  induction obs with
  | nil => intro ft; rfl
  | cons o obs ih =>
    intro ft
    rw [observeAll_cons, ih, IncreaseFunctionTracer_root]

theorem childRecords_observeAll (obs : List (GoString × GoString × Int)) :
    ∀ ft : FunctionTracer, PointersValid ft → ∀ k,
      childRecords (observeAll ft obs) k
        = childRecords ft k ++ (obs.filter (fun o => GetName o.1 = k)).map recordOf := by
  induction obs with
  | nil => intro ft hv k; simp [observeAll]
  | cons o obs ih =>
    intro ft hv k
    rw [observeAll_cons, ih _ (PointersValid_IncreaseFunctionTracer ft _ _ _ hv) k]
    by_cases hk : GetName o.1 = k
    · subst hk
      rw [childRecords_IncreaseFunctionTracer_self _ _ _ _ hv]
      simp [recordOf]
    · rw [childRecords_IncreaseFunctionTracer_ne _ _ _ _ _ hv (fun h => hk h.symm)]
      simp [hk]

theorem newFunctionMetrics_fields (k f : GoString) (e : Int) :
    (newFunctionMetrics k f e).Parent = k ∧ (newFunctionMetrics k f e).Function = f ∧
    (newFunctionMetrics k f e).Calls = 1 ∧ (newFunctionMetrics k f e).TotalTimeMs = e ∧
    (newFunctionMetrics k f e).AverageTimeMs = 0 ∧ (newFunctionMetrics k f e).Children = [] := by
  unfold newFunctionMetrics freshDTO
  simp only []
  split <;> split <;> simp

theorem newFunctionMetrics_ceilings (k f : GoString) (e : Int) :
    (newFunctionMetrics k f e).LowerCeiling = min e MaxInt32 ∧
    (newFunctionMetrics k f e).HigherCeiling = max e 0 := by
  unfold newFunctionMetrics freshDTO
  simp only []
  split <;> split <;> simp_all <;> omega

/-! ### The heap writes of `GetTree` -/

theorem skel_getElem? (h : Heap) (p : Ptr) : (skel h)[p]? = (h[p]?).map stripChildren := by
  simp [skel]

theorem skel_length_eq {h h2 : Heap} (hs : skel h = skel h2) : h.length = h2.length := by
  have := congrArg List.length hs
  simpa [skel] using this

theorem static_congr {β : Type} (g : FunctionTracerMetricsDTO → β)
    (hg : ∀ m, g (stripChildren m) = g m) {h h2 : Heap} (hs : skel h = skel h2) (p : Ptr) :
    (h[p]?).map g = (h2[p]?).map g := by
  have h0 : (h[p]?).map stripChildren = (h2[p]?).map stripChildren := by
    rw [← skel_getElem?, hs, skel_getElem?]
  cases h1 : h[p]? with
  | none =>
    cases h2' : h2[p]? with
    | none => rfl
    | some b => simp [h1, h2'] at h0
  | some a =>
    cases h2' : h2[p]? with
    | none => simp [h1, h2'] at h0
    | some b =>
      simp only [h1, h2', Option.map_some', Option.some.injEq] at h0 ⊢
      rw [← hg a, h0, hg b]

theorem keeps_congr (R : GoString) {h h2 : Heap} (hs : skel h = skel h2) (call : GoString)
    (p : Ptr) : keeps R h call p = keeps R h2 call p := by
  have := static_congr (included R call) (fun _ => rfl) hs p
  unfold keeps
  cases h1 : h[p]? <;> cases h2' : h2[p]? <;> simp [h1, h2'] at this ⊢
  exact this

theorem keptChildren_congr (R : GoString) {h h2 : Heap} (hs : skel h = skel h2)
    (call : GoString) (cs : List Ptr) : keptChildren R h call cs = keptChildren R h2 call cs := by
  unfold keptChildren
  congr 1
  funext p
  exact keeps_congr R hs call p

theorem kids_congr (R : GoString) (tbl : List (GoString × FunctionTracerMetricsDTO))
    {h h2 : Heap} (hs : skel h = skel h2) (key call : GoString) :
    kids R tbl h key call = kids R tbl h2 key call := by
  unfold kids
  cases mapLookup tbl key with
  | none => rfl
  | some child => exact keptChildren_congr R hs call _

theorem canonKids_congr (R : GoString) (tbl : List (GoString × FunctionTracerMetricsDTO))
    {h h2 : Heap} (hs : skel h = skel h2) (p : Ptr) :
    canonKids R tbl h p = canonKids R tbl h2 p := by
  have h0 := static_congr (fun m => (childInMap m, m.Function)) (fun _ => rfl) hs p
  unfold canonKids
  cases h1 : h[p]? with
  | none =>
    cases h2' : h2[p]? with
    | none => rfl
    | some b => simp [h1, h2'] at h0
  | some a =>
    cases h2' : h2[p]? with
    | none => simp [h1, h2'] at h0
    | some b =>
      simp only [h1, h2', Option.map_some', Option.some.injEq, Prod.mk.injEq] at h0
      simp only []
      rw [h0.1, h0.2]
      exact kids_congr R tbl hs _ _

theorem setChildren_getElem?_self (h : Heap) (p : Ptr) (cs : List Ptr)
    (c : FunctionTracerMetricsDTO) (hc : h[p]? = some c) :
    (setChildren h p cs)[p]? = some { c with Children := cs } := by
  have hlt : p < h.length := by
    rcases List.getElem?_eq_some.1 hc with ⟨hlt, _⟩
    exact hlt
  unfold setChildren
  simp [hc, List.getElem?_set, hlt]

theorem setChildren_getElem?_ne (h : Heap) (p q : Ptr) (cs : List Ptr) (hne : q ≠ p) :
    (setChildren h p cs)[q]? = h[q]? := by
  unfold setChildren
  cases hc : h[p]? with
  | none => rfl
  | some c =>
    have : ¬ p = q := fun h3 => hne h3.symm
    simp [List.getElem?_set, this]

theorem skel_setChildren (h : Heap) (p : Ptr) (cs : List Ptr) :
    skel (setChildren h p cs) = skel h := by
  apply List.ext_getElem?
  intro i
  rw [skel_getElem?, skel_getElem?]
  by_cases hi : i = p
  · subst hi
    cases hc : h[i]? with
    | none => simp [setChildren, hc]
    | some c => rw [setChildren_getElem?_self h i cs c hc]; rfl
  · rw [setChildren_getElem?_ne h p i cs hi]

theorem Upd_refl (R : GoString) (tbl : List (GoString × FunctionTracerMetricsDTO))
    (h : Heap) : Upd R tbl h h :=
  ⟨rfl, fun _ _ hc => Or.inl hc⟩

theorem Upd_trans (R : GoString) (tbl : List (GoString × FunctionTracerMetricsDTO))
    {h h1 h2 : Heap} (h01 : Upd R tbl h h1) (h12 : Upd R tbl h1 h2) : Upd R tbl h h2 := by
  refine ⟨h12.1.trans h01.1, ?_⟩
  intro p c2 hc2
  rcases h12.2 p c2 hc2 with h3 | h3
  · exact h01.2 p c2 h3
  · right
    rw [h3]
    exact canonKids_congr R tbl h01.1 p

theorem Upd_setChildren (R : GoString) (tbl : List (GoString × FunctionTracerMetricsDTO))
    (h : Heap) (p : Ptr) : Upd R tbl h (setChildren h p (canonKids R tbl h p)) := by
  refine ⟨skel_setChildren h p _, ?_⟩
  intro q c2 hc2
  by_cases hq : q = p
  · subst hq
    cases hc : h[q]? with
    | none =>
      simp [setChildren, hc] at hc2
    | some c =>
      rw [setChildren_getElem?_self h q _ c hc] at hc2
      injection hc2 with hc2
      right
      rw [← hc2]
  · rw [setChildren_getElem?_ne h p q _ hq] at hc2
    exact Or.inl hc2

theorem DoneN_of_Upd (R : GoString) (tbl : List (GoString × FunctionTracerMetricsDTO))
    (n : Nat) : ∀ {h h2 : Heap} (p : Ptr), Upd R tbl h h2 → DoneN R tbl n h p →
      DoneN R tbl n h2 p := by
  induction n with
  | zero => intro h h2 p _ hd; exact hd
  | succ n ih =>
    intro h h2 p hu hd
    obtain ⟨c, hc, hcc, hall⟩ := hd
    have hck : canonKids R tbl h2 p = canonKids R tbl h p := canonKids_congr R tbl hu.1 p
    have hlen : h2.length = h.length := skel_length_eq hu.1
    have hlt : p < h.length := (List.getElem?_eq_some.1 hc).1
    have hlt2 : p < h2.length := by rw [hlen]; exact hlt
    refine ⟨h2[p], List.getElem?_eq_getElem hlt2, ?_, ?_⟩
    · rcases hu.2 p h2[p] (List.getElem?_eq_getElem hlt2) with h3 | h3
      · rw [hc] at h3
        injection h3 with h3
        rw [← h3, hcc, hck]
      · rw [h3, hck]
    · intro q hq
      rw [hck] at hq
      exact ih q hu (hall q hq)

theorem GetTreeLoop_sound (R : GoString) (tbl : List (GoString × FunctionTracerMetricsDTO))
    (n : Nat) (recur : Heap → GoString → GoString → Option (List Ptr × Heap))
    (hrec : Sound R tbl n recur) (call : GoString) :
    ∀ (cs acc : List Ptr) (h : Heap) (ps : List Ptr) (h1 : Heap),
      GetTreeLoop R recur call cs acc h = some (ps, h1) →
        ps = acc ++ keptChildren R h call cs ∧ Upd R tbl h h1 ∧
          ((∀ p ∈ acc, DoneN R tbl (n + 1) h p) → ∀ p ∈ ps, DoneN R tbl (n + 1) h1 p) := by
  intro cs
  induction cs with
  | nil =>
    intro acc h ps h1 hrun
    simp only [GetTreeLoop, Option.some.injEq, Prod.mk.injEq] at hrun
    obtain ⟨rfl, rfl⟩ := hrun
    exact ⟨by simp [keptChildren], Upd_refl R tbl _, fun ha => ha⟩
  | cons p rest ih =>
    intro acc h ps h1 hrun
    unfold GetTreeLoop at hrun
    cases hm : h[p]? with
    | none => simp [hm] at hrun
    | some m =>
      simp only [hm] at hrun
      by_cases hinc : call = R ∨ GetSuffix m.Function = GetSuffix call
      · simp only [hinc, if_true] at hrun
        cases hr : recur h (GetName m.Function ++ GetSuffix m.Parent) m.Function with
        | none => simp [hr] at hrun
        | some res =>
          obtain ⟨sub, hh⟩ := res
          simp only [hr] at hrun
          obtain ⟨hsub, hu1, hdone⟩ := hrec _ _ _ _ _ hr
          have hcanon : sub = canonKids R tbl h p := by
            rw [hsub]; simp [canonKids, hm, childInMap]
          have hcanon2 : sub = canonKids R tbl hh p := by
            rw [hcanon]; exact (canonKids_congr R tbl hu1.1 p).symm
          have hu2 : Upd R tbl hh (setChildren hh p sub) := by
            rw [hcanon2]; exact Upd_setChildren R tbl hh p
          have hu : Upd R tbl h (setChildren hh p sub) := Upd_trans R tbl hu1 hu2
          obtain ⟨hps, hu3, hd3⟩ := ih _ _ _ _ hrun
          have hkeep : keeps R h call p = true := by
            simp [keeps, hm, included, hinc]
          refine ⟨?_, Upd_trans R tbl hu hu3, ?_⟩
          · rw [hps, keptChildren_congr R hu.1 call rest]
            simp [keptChildren, List.filter_cons, hkeep]
          · intro hacc
            apply hd3
            intro q hq
            rcases List.mem_append.1 hq with hq | hq
            · exact DoneN_of_Upd R tbl (n + 1) q hu (hacc q hq)
            · have hqp : q = p := by simpa using hq
              subst hqp
              have hlt : q < hh.length := by
                rw [← @skel_length_eq h hh hu1.1.symm]
                exact (List.getElem?_eq_some.1 hm).1
              have hck : canonKids R tbl (setChildren hh q sub) q = sub := by
                rw [canonKids_congr R tbl hu2.1 q]; exact hcanon2.symm
              refine ⟨_, setChildren_getElem?_self hh q sub hh[q]
                (List.getElem?_eq_getElem hlt), ?_, ?_⟩
              · simp [hck]
              · intro r hr2
                rw [hck] at hr2
                exact DoneN_of_Upd R tbl n r hu2 (hdone r hr2)
      · simp only [hinc, if_false] at hrun
        obtain ⟨hps, hu3, hd3⟩ := ih _ _ _ _ hrun
        have hkeep : keeps R h call p = false := by
          simp [keeps, hm, included, hinc]
        refine ⟨?_, hu3, hd3⟩
        rw [hps]
        simp [keptChildren, List.filter_cons, hkeep]

theorem GetTreeLoop_recur_none (R : GoString)
    (recur : Heap → GoString → GoString → Option (List Ptr × Heap))
    (hnone : ∀ h key call, recur h key call = none) (call : GoString) :
    ∀ (cs acc : List Ptr) (h : Heap) (ps : List Ptr) (h1 : Heap),
      GetTreeLoop R recur call cs acc h = some (ps, h1) → ps = acc := by
  intro cs
  induction cs with
  | nil =>
    intro acc h ps h1 hrun
    simp only [GetTreeLoop, Option.some.injEq, Prod.mk.injEq] at hrun
    exact hrun.1.symm
  | cons p rest ih =>
    intro acc h ps h1 hrun
    unfold GetTreeLoop at hrun
    cases hm : h[p]? with
    | none => simp [hm] at hrun
    | some m =>
      simp only [hm] at hrun
      by_cases hinc : call = R ∨ GetSuffix m.Function = GetSuffix call
      · simp [hinc, hnone] at hrun
      · simp only [hinc, if_false] at hrun
        exact ih _ _ _ _ hrun

theorem Sound_zero_GetTreeOn_zero (R : GoString)
    (tbl : List (GoString × FunctionTracerMetricsDTO)) (k : Nat) :
    Sound R tbl k (GetTreeOn R tbl 0) := by
  intro h key call ps h1 hrun
  simp [GetTreeOn] at hrun

theorem GetTreeOn_sound (R : GoString) (tbl : List (GoString × FunctionTracerMetricsDTO))
    (n : Nat) : Sound R tbl n (GetTreeOn R tbl (n + 1)) := by
  induction n with
  | zero =>
    intro h key call ps h1 hrun
    unfold GetTreeOn at hrun
    cases hl : mapLookup tbl key with
    | none =>
      simp only [hl, Option.some.injEq, Prod.mk.injEq] at hrun
      obtain ⟨rfl, rfl⟩ := hrun
      exact ⟨by simp [kids, hl], Upd_refl R tbl _, by simp⟩
    | some child =>
      simp only [hl] at hrun
      obtain ⟨hps, hu, _⟩ := GetTreeLoop_sound R tbl 0 _
        (Sound_zero_GetTreeOn_zero R tbl 0) call _ _ _ _ _ hrun
      have hnil : ps = [] := GetTreeLoop_recur_none R _
        (fun _ _ _ => by simp [GetTreeOn]) call _ _ _ _ _ hrun
      refine ⟨by simpa [kids, hl] using hps, hu, ?_⟩
      rw [hnil]; simp
  | succ n ih =>
    intro h key call ps h1 hrun
    unfold GetTreeOn at hrun
    cases hl : mapLookup tbl key with
    | none =>
      simp only [hl, Option.some.injEq, Prod.mk.injEq] at hrun
      obtain ⟨rfl, rfl⟩ := hrun
      exact ⟨by simp [kids, hl], Upd_refl R tbl _, by simp⟩
    | some child =>
      simp only [hl] at hrun
      obtain ⟨hps, hu, hd⟩ := GetTreeLoop_sound R tbl n _ ih call _ _ _ _ _ hrun
      exact ⟨by simpa [kids, hl] using hps, hu, hd (by simp)⟩

theorem GetTreeOn_skel (R : GoString) (tbl : List (GoString × FunctionTracerMetricsDTO))
    (n : Nat) (h : Heap) (key call : GoString) (ps : List Ptr) (h1 : Heap)
    (hrun : GetTreeOn R tbl n h key call = some (ps, h1)) : skel h1 = skel h := by
  cases n with
  | zero => simp [GetTreeOn] at hrun
  | succ n => exact (GetTreeOn_sound R tbl n h key call ps h1 hrun).2.1.1

/-! ### Reading the tree back -/

theorem optionMapList_congr {α β : Type} (f g : α → Option β) (l : List α)
    (h : ∀ a ∈ l, f a = g a) : optionMapList f l = optionMapList g l := by
  induction l with
  | nil => rfl
  | cons a as ih =>
    have h1 : f a = g a := h a (by simp)
    have h2 : optionMapList f as = optionMapList g as :=
      ih (fun b hb => h b (by simp [hb]))
    simp only [optionMapList, h1, h2]

theorem optionMapList_some {α β : Type} (f : α → Option β) (g : α → β) (l : List α)
    (h : ∀ a ∈ l, f a = some (g a)) : optionMapList f l = some (l.map g) := by
  induction l with
  | nil => rfl
  | cons a as ih =>
    have h1 : f a = some (g a) := h a (by simp)
    have h2 := ih (fun b hb => h b (by simp [hb]))
    simp only [optionMapList, h1, h2, List.map_cons]

theorem optionMapList_exists {α β : Type} (f : α → Option β) (l : List α)
    (h : ∀ a ∈ l, ∃ b, f a = some b) : ∃ bs, optionMapList f l = some bs := by
  induction l with
  | nil => exact ⟨[], rfl⟩
  | cons a as ih =>
    obtain ⟨b, hb⟩ := h a (by simp)
    obtain ⟨bs, hbs⟩ := ih (fun c hc => h c (by simp [hc]))
    exact ⟨b :: bs, by simp only [optionMapList, hb, hbs]⟩

theorem optionMapList_elim {α β : Type} (f : α → Option β) (l : List α) (bs : List β)
    (h : optionMapList f l = some bs) : ∀ a ∈ l, ∃ b, f a = some b := by
  induction l generalizing bs with
  | nil => intro a ha; simp at ha
  | cons a as ih =>
    intro c hc
    unfold optionMapList at h
    cases hfa : f a with
    | none => simp [hfa] at h
    | some b =>
      simp only [hfa] at h
      cases hrest : optionMapList f as with
      | none => simp [hrest] at h
      | some bs2 =>
        rcases List.mem_cons.1 hc with rfl | hc
        · exact ⟨b, hfa⟩
        · exact ih bs2 hrest c hc

theorem static_cases {h h2 : Heap} (hs : skel h = skel h2) (p : Ptr) :
    (h[p]? = none ∧ h2[p]? = none) ∨
      ∃ a b, h[p]? = some a ∧ h2[p]? = some b ∧ stripChildren a = stripChildren b := by
  have h0 : (h[p]?).map stripChildren = (h2[p]?).map stripChildren := by
    rw [← skel_getElem?, hs, skel_getElem?]
  cases h1 : h[p]? with
  | none =>
    cases h2' : h2[p]? with
    | none => exact Or.inl ⟨rfl, rfl⟩
    | some b => simp [h1, h2'] at h0
  | some a =>
    cases h2' : h2[p]? with
    | none => simp [h1, h2'] at h0
    | some b =>
      simp only [h1, h2', Option.map_some', Option.some.injEq] at h0
      exact Or.inr ⟨a, b, rfl, rfl, h0⟩

theorem strip_fields {a b : FunctionTracerMetricsDTO} (h : stripChildren a = stripChildren b) :
    childInMap a = childInMap b ∧ a.Function = b.Function ∧
      ∀ ts, nodeOf a ts = nodeOf b ts := by
  have e1 : childInMap a = childInMap (stripChildren a) := rfl
  have e2 : a.Function = (stripChildren a).Function := rfl
  have e3 : ∀ ts, nodeOf a ts = nodeOf (stripChildren a) ts := fun _ => rfl
  refine ⟨?_, ?_, ?_⟩
  · rw [e1, h]; rfl
  · rw [e2, h]; rfl
  · intro ts; rw [e3, h]; rfl

theorem pureKids_congr (R : GoString) (tbl : List (GoString × FunctionTracerMetricsDTO))
    {h h2 : Heap} (hs : skel h = skel h2) (n : Nat) :
    ∀ key call, pureKids R tbl h n key call = pureKids R tbl h2 n key call := by
  induction n with
  | zero => intro key call; rfl
  | succ n ih =>
    intro key call
    unfold pureKids
    rw [kids_congr R tbl hs key call]
    apply optionMapList_congr
    intro p _
    rcases static_cases hs p with ⟨e1, e2⟩ | ⟨a, b, e1, e2, e3⟩
    · simp [e1, e2]
    · obtain ⟨f1, f2, f3⟩ := strip_fields e3
      simp only [e1, e2]
      rw [f1, f2, ih]
      cases pureKids R tbl h2 n (childInMap b) b.Function with
      | none => rfl
      | some ts => simp [f3]

theorem render_of_DoneN (R : GoString) (tbl : List (GoString × FunctionTracerMetricsDTO))
    (n : Nat) : ∀ (h : Heap) (p : Ptr) (c : FunctionTracerMetricsDTO),
      DoneN R tbl n h p → h[p]? = some c →
        ∃ ts, pureKids R tbl h n (childInMap c) c.Function = some ts ∧
          render n h c = some (nodeOf c ts) := by
  induction n with
  | zero => intro h p c hd; exact hd.elim
  | succ n ih =>
    intro h p c hd hc
    obtain ⟨c2, hc2, hcc, hall⟩ := hd
    rw [hc] at hc2
    injection hc2 with hc2
    subst hc2
    have hk : canonKids R tbl h p = kids R tbl h (childInMap c) c.Function := by
      simp [canonKids, hc]
    rw [hk] at hcc hall
    have hex : ∀ q ∈ kids R tbl h (childInMap c) c.Function,
        ∃ t, (match h[q]? with
          | none => none
          | some m => (pureKids R tbl h n (childInMap m) m.Function).map (nodeOf m)) = some t := by
      intro q hq
      have hdq := hall q hq
      cases n with
      | zero => exact hdq.elim
      | succ n =>
        obtain ⟨cq, hcq, _, _⟩ := hdq
        obtain ⟨ts, hts, _⟩ := ih h q cq (hall q hq) hcq
        exact ⟨nodeOf cq ts, by simp [hcq, hts]⟩
    obtain ⟨ts, hts⟩ := optionMapList_exists _ _ hex
    refine ⟨ts, ?_, ?_⟩
    · unfold pureKids; exact hts
    · unfold render
      rw [hcc]
      have hcongr : optionMapList
          (fun q => match h[q]? with
            | none => none
            | some cq => render n h cq) (kids R tbl h (childInMap c) c.Function) = some ts := by
        rw [← hts]
        apply optionMapList_congr
        intro q hq
        have hdq := hall q hq
        cases n with
        | zero => exact hdq.elim
        | succ n =>
          obtain ⟨cq, hcq, _, _⟩ := hdq
          obtain ⟨ts2, hts2, hr2⟩ := ih h q cq (hall q hq) hcq
          simp [hcq, hts2, hr2]
      rw [hcongr]; rfl

theorem GetTreeOn_render (R : GoString) (tbl : List (GoString × FunctionTracerMetricsDTO))
    (n : Nat) (h : Heap) (key call : GoString) (ps : List Ptr) (h1 : Heap)
    (hrun : GetTreeOn R tbl (n + 1) h key call = some (ps, h1)) :
    skel h1 = skel h ∧ ps = kids R tbl h key call ∧
      ∃ ts, pureKids R tbl h (n + 1) key call = some ts ∧
        optionMapList (fun p => match h1[p]? with
          | none => none
          | some c => render n h1 c) ps = some ts := by
  obtain ⟨hps, hu, hd⟩ := GetTreeOn_sound R tbl n h key call ps h1 hrun
  have hex : ∀ q ∈ ps, ∃ t, (match h1[q]? with
      | none => none
      | some c => render n h1 c) = some t := by
    intro q hq
    have hdq := hd q hq
    cases n with
    | zero => exact hdq.elim
    | succ n =>
      obtain ⟨cq, hcq, _, _⟩ := hdq
      obtain ⟨ts, _, hr⟩ := render_of_DoneN R tbl (n + 1) h1 q cq (hd q hq) hcq
      exact ⟨nodeOf cq ts, by simp [hcq, hr]⟩
  obtain ⟨ts, hts⟩ := optionMapList_exists _ _ hex
  refine ⟨hu.1, hps, ts, ?_, hts⟩
  rw [pureKids_congr R tbl hu.1.symm (n + 1) key call]
  unfold pureKids
  rw [← kids_congr R tbl hu.1.symm key call, ← hps, ← hts]
  apply optionMapList_congr
  intro q hq
  have hdq := hd q hq
  cases n with
  | zero => exact hdq.elim
  | succ n =>
    obtain ⟨cq, hcq, _, _⟩ := hdq
    obtain ⟨ts2, hts2, hr2⟩ := render_of_DoneN R tbl (n + 1) h1 q cq (hd q hq) hcq
    simp [hcq, hts2, hr2]

theorem GetTreeLoop_complete (R : GoString) (tbl : List (GoString × FunctionTracerMetricsDTO))
    (n : Nat) (h0 : Heap) (recur : Heap → GoString → GoString → Option (List Ptr × Heap))
    (hskel : ∀ h key call ps h1, recur h key call = some (ps, h1) → skel h1 = skel h)
    (hrec : ∀ h key call, skel h = skel h0 →
      (∃ ts, pureKids R tbl h0 n key call = some ts) → ∃ r, recur h key call = some r)
    (call : GoString) :
    ∀ (cs acc : List Ptr) (h : Heap), skel h = skel h0 → (∀ p ∈ cs, p < h.length) →
      (∀ p ∈ keptChildren R h call cs, ∀ m, h[p]? = some m →
        ∃ ts, pureKids R tbl h0 n (childInMap m) m.Function = some ts) →
      ∃ r, GetTreeLoop R recur call cs acc h = some r := by
  intro cs
  induction cs with
  | nil => intro acc h _ _ _; exact ⟨_, rfl⟩
  | cons p rest ih =>
    intro acc h hs hval hpure
    have hlt : p < h.length := hval p (by simp)
    have hm : h[p]? = some h[p] := List.getElem?_eq_getElem hlt
    unfold GetTreeLoop
    simp only [hm]
    by_cases hinc : call = R ∨ GetSuffix h[p].Function = GetSuffix call
    · simp only [hinc, if_true]
      have hkeep : keeps R h call p = true := by
        simp [keeps, hm, included, hinc]
      have hpk : p ∈ keptChildren R h call (p :: rest) := by
        simp [keptChildren, List.filter_cons, hkeep]
      obtain ⟨r, hr⟩ := hrec h (GetName h[p].Function ++ GetSuffix h[p].Parent)
        h[p].Function hs (hpure p hpk h[p] hm)
      obtain ⟨sub, hh⟩ := r
      simp only [hr]
      have hs1 : skel hh = skel h := hskel _ _ _ _ _ hr
      have hs2 : skel (setChildren hh p sub) = skel h := (skel_setChildren hh p sub).trans hs1
      apply ih _ _ (hs2.trans hs)
      · intro q hq
        rw [skel_length_eq hs2]
        exact hval q (by simp [hq])
      · intro q hq m2 hm2
        rw [keptChildren_congr R hs2 call rest] at hq
        rcases static_cases hs2 q with ⟨e1, _⟩ | ⟨a, b, e1, e2, e3⟩
        · rw [e1] at hm2; cases hm2
        · rw [e1] at hm2
          injection hm2 with hm2
          subst hm2
          obtain ⟨f1, f2, _⟩ := strip_fields e3
          rw [f1, f2]
          apply hpure q _ b e2
          simp only [keptChildren, List.filter_cons, hkeep, if_true] at hq ⊢
          exact List.mem_cons_of_mem _ hq
    · simp only [hinc, if_false]
      have hkeep : keeps R h call p = false := by
        simp [keeps, hm, included, hinc]
      apply ih _ _ hs
      · intro q hq; exact hval q (by simp [hq])
      · intro q hq m2 hm2
        apply hpure q _ m2 hm2
        simp only [keptChildren, List.filter_cons, hkeep] at hq ⊢
        exact hq

theorem GetTreeOn_complete (R : GoString) (tbl : List (GoString × FunctionTracerMetricsDTO))
    (h0 : Heap)
    (hval : ∀ k child, mapLookup tbl k = some child → ∀ p ∈ child.Children, p < h0.length)
    (n : Nat) : ∀ (h : Heap) (key call : GoString), skel h = skel h0 →
      (∃ ts, pureKids R tbl h0 n key call = some ts) →
        ∃ r, GetTreeOn R tbl n h key call = some r := by
  induction n with
  | zero => intro h key call _ hp; obtain ⟨ts, hts⟩ := hp; simp [pureKids] at hts
  | succ n ih =>
    intro h key call hs hp
    obtain ⟨ts, hts⟩ := hp
    unfold GetTreeOn
    cases hl : mapLookup tbl key with
    | none => exact ⟨_, rfl⟩
    | some child =>
      simp only []
      apply GetTreeLoop_complete R tbl n h0 _
        (fun h key call ps h1 hr => GetTreeOn_skel R tbl n h key call ps h1 hr) ih call _ _ h hs
      · intro p hp
        rw [skel_length_eq hs]
        exact hval key child hl p hp
      · intro p hp m hm
        unfold pureKids at hts
        have hp0 : p ∈ kids R tbl h0 key call := by
          rw [← kids_congr R tbl hs key call]
          simpa [kids, hl] using hp
        obtain ⟨t, ht⟩ := optionMapList_elim _ _ _ hts p hp0
        rcases static_cases hs p with ⟨e1, _⟩ | ⟨a, b, e1, e2, e3⟩
        · rw [e1] at hm; cases hm
        · rw [e1] at hm
          injection hm with hm
          subst hm
          obtain ⟨f1, f2, _⟩ := strip_fields e3
          rw [f1, f2]
          simp only [e2] at ht
          cases hpk : pureKids R tbl h0 n (childInMap b) b.Function with
          | none => simp [hpk] at ht
          | some ts2 => exact ⟨ts2, rfl⟩

/-- The expanded snapshot, computed without writing. -/
theorem snapshot_sound (n : Nat) (ft ft1 : FunctionTracer) (t : SnapshotTree)
    (hrun : snapshot n ft = some (t, ft1)) :
    ∃ ts, pureKids ft.root ft.metrics ft.heap n ft.root ft.root = some ts ∧
      t = nodeOf (freshDTO ft.root ft.root) ts ∧
      ft1.root = ft.root ∧ ft1.metrics = ft.metrics ∧ skel ft1.heap = skel ft.heap := by
  cases n with
  | zero =>
    simp [snapshot, GetFunctionTracerMetrics, GetFunctionTracerMetricsLocals, GetTree,
      GetTreeOn] at hrun
  | succ n =>
    unfold snapshot GetFunctionTracerMetrics GetFunctionTracerMetricsLocals GetTree at hrun
    cases hg : GetTreeOn ft.root ft.metrics (n + 1) ft.heap ft.root ft.root with
    | none => simp [hg] at hrun
    | some r =>
      obtain ⟨ps, h1⟩ := r
      obtain ⟨hs, _, ts, hts, hrd⟩ := GetTreeOn_render _ _ n _ _ _ ps h1 hg
      simp only [hg, Option.map_some', render, hrd, Option.some.injEq, Prod.mk.injEq] at hrun
      obtain ⟨rfl, rfl⟩ := hrun
      exact ⟨ts, hts, rfl, rfl, rfl, hs⟩

theorem snapshot_complete (n : Nat) (ft : FunctionTracer) (hv : PointersValid ft)
    (ts : List SnapshotTree)
    (hp : pureKids ft.root ft.metrics ft.heap n ft.root ft.root = some ts) :
    ∃ ft1, snapshot n ft = some (nodeOf (freshDTO ft.root ft.root) ts, ft1) := by
  cases n with
  | zero => simp [pureKids] at hp
  | succ n =>
    obtain ⟨r, hg⟩ := GetTreeOn_complete ft.root ft.metrics ft.heap hv (n + 1) ft.heap
      ft.root ft.root rfl ⟨ts, hp⟩
    obtain ⟨ps, h1⟩ := r
    obtain ⟨_, _, ts2, hts2, hrd⟩ := GetTreeOn_render _ _ n _ _ _ ps h1 hg
    rw [hp] at hts2
    injection hts2 with hts2
    subst hts2
    refine ⟨{ ft with heap := h1 }, ?_⟩
    unfold snapshot GetFunctionTracerMetrics GetFunctionTracerMetricsLocals GetTree
    simp only [hg, Option.map_some', render, hrd]
    rfl

theorem optionMapList_filter_deref {β : Type} (h : Heap)
    (P : FunctionTracerMetricsDTO → Bool) (g : FunctionTracerMetricsDTO → Option β)
    (ps : List Ptr) (hval : ∀ p ∈ ps, p < h.length) :
    optionMapList (fun p => match h[p]? with
        | none => none
        | some m => g m)
      (ps.filter (fun p => match h[p]? with
        | none => false
        | some m => P m))
      = optionMapList g ((ps.filterMap (fun p => h[p]?)).filter P) := by
  induction ps with
  | nil => rfl
  | cons p rest ih =>
    have hlt : p < h.length := hval p (by simp)
    have hm : h[p]? = some h[p] := List.getElem?_eq_getElem hlt
    have ih2 := ih (fun q hq => hval q (by simp [hq]))
    cases hP : P h[p] with
    | true =>
      simp only [List.filter_cons, hm, hP, if_true, List.filterMap_cons, optionMapList]
      rw [ih2]
    | false =>
      simp only [List.filter_cons, hm, hP, List.filterMap_cons]
      exact ih2

theorem pureKids_succ (R : GoString) (tbl : List (GoString × FunctionTracerMetricsDTO))
    (h : Heap) (n : Nat) (key call : GoString) :
    pureKids R tbl h (n + 1) key call
      = optionMapList
          (fun p => match h[p]? with
            | none => none
            | some m => (pureKids R tbl h n (childInMap m) m.Function).map (nodeOf m))
          (kids R tbl h key call) := rfl

theorem pureKids_childRecords (ft : FunctionTracer) (hv : PointersValid ft) (n : Nat)
    (key call : GoString) :
    pureKids ft.root ft.metrics ft.heap (n + 1) key call
      = optionMapList
          (fun m => (pureKids ft.root ft.metrics ft.heap n (childInMap m) m.Function).map
            (nodeOf m))
          ((childRecords ft key).filter (included ft.root call)) := by
  rw [pureKids_succ]
  unfold kids childRecords
  cases hl : mapLookup ft.metrics key with
  | none => rfl
  | some child =>
    exact optionMapList_filter_deref ft.heap (included ft.root call) _ child.Children
      (hv key child hl)

theorem GetTreeLoop_sim (R : GoString)
    (recur : Heap → GoString → GoString → Option (List Ptr × Heap))
    (hskel : ∀ h key call ps h1, recur h key call = some (ps, h1) → skel h1 = skel h)
    (hsim : ∀ h h2 key call, skel h = skel h2 → (∃ r, recur h key call = some r) →
      ∃ r, recur h2 key call = some r)
    (call : GoString) :
    ∀ (cs acc acc2 : List Ptr) (h h2 : Heap), skel h = skel h2 →
      (∃ r, GetTreeLoop R recur call cs acc h = some r) →
        ∃ r, GetTreeLoop R recur call cs acc2 h2 = some r := by
  intro cs
  induction cs with
  | nil => intro acc acc2 h h2 _ _; exact ⟨_, rfl⟩
  | cons p rest ih =>
    intro acc acc2 h h2 hs hrun
    obtain ⟨r, hrun⟩ := hrun
    unfold GetTreeLoop at hrun ⊢
    rcases static_cases hs p with ⟨e1, _⟩ | ⟨a, b, e1, e2, e3⟩
    · simp [e1] at hrun
    · have g1 : (stripChildren a).Function = (stripChildren b).Function := by rw [e3]
      have g2 : (stripChildren a).Parent = (stripChildren b).Parent := by rw [e3]
      change a.Function = b.Function at g1
      change a.Parent = b.Parent at g2
      simp only [e1] at hrun
      simp only [e2]
      rw [g1, g2] at hrun
      by_cases hinc : call = R ∨ GetSuffix b.Function = GetSuffix call
      · simp only [hinc, if_true] at hrun ⊢
        cases hr : recur h (GetName b.Function ++ GetSuffix b.Parent) b.Function with
        | none => simp [hr] at hrun
        | some res =>
          obtain ⟨sub, hh⟩ := res
          simp only [hr] at hrun
          obtain ⟨res2, hr2⟩ := hsim h h2 _ _ hs ⟨_, hr⟩
          obtain ⟨sub2, hh2⟩ := res2
          simp only [hr2]
          apply ih _ _ _ _ ?_ ⟨r, hrun⟩
          rw [skel_setChildren, skel_setChildren, hskel _ _ _ _ _ hr, hskel _ _ _ _ _ hr2]
          exact hs
      · simp only [hinc, if_false] at hrun ⊢
        exact ih _ _ _ _ hs ⟨r, hrun⟩

theorem GetTreeOn_sim (R : GoString) (tbl : List (GoString × FunctionTracerMetricsDTO))
    (n : Nat) : ∀ (h h2 : Heap) (key call : GoString), skel h = skel h2 →
      (∃ r, GetTreeOn R tbl n h key call = some r) →
        ∃ r, GetTreeOn R tbl n h2 key call = some r := by
  induction n with
  | zero => intro h h2 key call _ hrun; obtain ⟨r, hr⟩ := hrun; simp [GetTreeOn] at hr
  | succ n ih =>
    intro h h2 key call hs hrun
    unfold GetTreeOn at hrun ⊢
    cases hl : mapLookup tbl key with
    | none => exact ⟨_, rfl⟩
    | some child =>
      simp only [hl] at hrun
      exact GetTreeLoop_sim R _
        (fun h key call ps h1 hr => GetTreeOn_skel R tbl n h key call ps h1 hr) ih call
        _ _ _ h h2 hs hrun

theorem observeAll_heap (obs : List (GoString × GoString × Int)) :
    ∀ ft : FunctionTracer, (observeAll ft obs).heap = ft.heap ++ obs.map recordOf := by
  induction obs with
  | nil => intro ft; simp [observeAll]
  | cons o obs ih =>
    intro ft
    rw [observeAll_cons, ih, IncreaseFunctionTracer_heap]
    simp [recordOf]

theorem mem_of_mapLookup (m : List (GoString × FunctionTracerMetricsDTO)) (k : GoString)
    (v : FunctionTracerMetricsDTO) (h : mapLookup m k = some v) : (k, v) ∈ m := by
  induction m with
  | nil => simp [mapLookup] at h
  | cons kv rest ih =>
    obtain ⟨k1, v1⟩ := kv
    unfold mapLookup at h
    by_cases hk : k1 = k
    · simp only [hk, if_true, Option.some.injEq] at h
      subst h; subst hk
      exact List.mem_cons_self _ _
    · simp only [hk, if_false] at h
      exact List.mem_cons_of_mem _ (ih h)

/-- Entries of the table come from the observations `seen`, and point at or above `base`. -/
theorem observeAll_entries (obs : List (GoString × GoString × Int)) :
    ∀ (ft : FunctionTracer) (base : Nat) (seen : List (GoString × GoString × Int)),
      (∀ k child, mapLookup ft.metrics k = some child →
        (∃ o ∈ seen, k = GetName o.1) ∧
          ∀ p ∈ child.Children, base ≤ p ∧ p < ft.heap.length) →
      base ≤ ft.heap.length →
      ∀ k child, mapLookup (observeAll ft obs).metrics k = some child →
        (∃ o ∈ seen ++ obs, k = GetName o.1) ∧
          ∀ p ∈ child.Children, base ≤ p ∧ p < (observeAll ft obs).heap.length := by
  induction obs with
  | nil =>
    intro ft base seen hinv _ k child hl
    simpa [observeAll] using hinv k child hl
  | cons o obs ih =>
    intro ft base seen hinv hbase k child hl
    rw [observeAll_cons] at hl ⊢
    have hstep := ih (IncreaseFunctionTracer ft o.1 o.2.1 o.2.2) base (seen ++ [o]) ?_ ?_
      k child hl
    · simpa using hstep
    · intro k2 child2 hl2
      rw [IncreaseFunctionTracer_heap]
      simp only [List.length_append, List.length_singleton]
      by_cases hk : k2 = GetName o.1
      · subst hk
        rw [IncreaseFunctionTracer_lookup_self] at hl2
        injection hl2 with hl2
        subst hl2
        refine ⟨⟨o, by simp, rfl⟩, ?_⟩
        intro p hp
        simp only [List.mem_append, List.mem_singleton] at hp
        rcases hp with hp | hp
        · cases h2 : mapLookup ft.metrics (GetName o.1) with
          | none => simp [h2, freshDTO] at hp
          | some v =>
            simp only [h2, Option.getD_some] at hp
            have := (hinv _ _ h2).2 p hp
            exact ⟨this.1, Nat.lt_succ_of_lt this.2⟩
        · rw [hp]; exact ⟨hbase, Nat.lt_succ_self _⟩
      · rw [IncreaseFunctionTracer_lookup_ne _ _ _ _ _ hk] at hl2
        obtain ⟨⟨o2, ho2, hk2⟩, hps⟩ := hinv _ _ hl2
        refine ⟨⟨o2, by simp [ho2], hk2⟩, ?_⟩
        intro p hp
        exact ⟨(hps p hp).1, Nat.lt_succ_of_lt (hps p hp).2⟩
    · rw [IncreaseFunctionTracer_heap]
      simp only [List.length_append, List.length_singleton]
      exact Nat.le_succ_of_le hbase

theorem snapshot_of_GetTreeOn (n : Nat) (ft : FunctionTracer) (ps : List Ptr) (h1 : Heap)
    (hg : GetTreeOn ft.root ft.metrics (n + 1) ft.heap ft.root ft.root = some (ps, h1)) :
    ∃ ts, pureKids ft.root ft.metrics ft.heap (n + 1) ft.root ft.root = some ts ∧
      snapshot (n + 1) ft
        = some (nodeOf (freshDTO ft.root ft.root) ts, { ft with heap := h1 }) := by
  obtain ⟨_, _, ts, hts, hrd⟩ := GetTreeOn_render _ _ n _ _ _ ps h1 hg
  refine ⟨ts, hts, ?_⟩
  unfold snapshot GetFunctionTracerMetrics GetFunctionTracerMetricsLocals GetTree
  simp only [hg, Option.map_some', render, hrd]
  rfl

theorem GetTreeOn_of_snapshot (n : Nat) (ft ft1 : FunctionTracer) (t : SnapshotTree)
    (hrun : snapshot n ft = some (t, ft1)) :
    ∃ ps, GetTreeOn ft.root ft.metrics n ft.heap ft.root ft.root = some (ps, ft1.heap) := by
  unfold snapshot GetFunctionTracerMetrics GetFunctionTracerMetricsLocals GetTree at hrun
  cases hg : GetTreeOn ft.root ft.metrics n ft.heap ft.root ft.root with
  | none => simp [hg] at hrun
  | some r =>
    obtain ⟨ps, h1⟩ := r
    simp only [hg, Option.map_some'] at hrun
    cases hr : render n h1
        { freshDTO ft.root ft.root with Children := ps } with
    | none => simp [hr] at hrun
    | some t2 =>
      simp only [hr, Option.map_some', Option.some.injEq, Prod.mk.injEq] at hrun
      obtain ⟨_, rfl⟩ := hrun
      exact ⟨ps, rfl⟩

theorem optionMapList_mem {α β : Type} (f : α → Option β) (l : List α) (bs : List β)
    (h : optionMapList f l = some bs) : ∀ b ∈ bs, ∃ a ∈ l, f a = some b := by
  induction l generalizing bs with
  | nil =>
    simp only [optionMapList, Option.some.injEq] at h
    subst h
    intro b hb; simp at hb
  | cons a as ih =>
    unfold optionMapList at h
    cases hfa : f a with
    | none => simp [hfa] at h
    | some b0 =>
      simp only [hfa] at h
      cases hrest : optionMapList f as with
      | none => simp [hrest] at h
      | some bs2 =>
        simp only [hrest, Option.some.injEq] at h
        subst h
        intro b hb
        rcases List.mem_cons.1 hb with rfl | hb
        · exact ⟨a, by simp, hfa⟩
        · obtain ⟨a2, ha2, hf2⟩ := ih bs2 hrest b hb
          exact ⟨a2, by simp [ha2], hf2⟩

theorem mem_nodesOfList (ts : List SnapshotTree) (d : SnapshotTree) :
    d ∈ SnapshotTree.nodesOfList ts ↔ ∃ t ∈ ts, d ∈ t.nodes := by
  induction ts with
  | nil => simp [SnapshotTree.nodesOfList]
  | cons t ts ih => simp [SnapshotTree.nodesOfList, ih]

theorem nodes_nodeOf (m : FunctionTracerMetricsDTO) (ts : List SnapshotTree) :
    (nodeOf m ts).nodes = nodeOf m ts :: SnapshotTree.nodesOfList ts := by
  simp [nodeOf, SnapshotTree.nodes]

/-- Where an element of the expanded children comes from. -/
theorem pureKids_elem (R : GoString) (tbl : List (GoString × FunctionTracerMetricsDTO))
    (h : Heap) (n : Nat) (key call : GoString) (ts : List SnapshotTree)
    (hp : pureKids R tbl h (n + 1) key call = some ts) (t : SnapshotTree) (ht : t ∈ ts) :
    ∃ child p m ts2, mapLookup tbl key = some child ∧ p ∈ child.Children ∧
      h[p]? = some m ∧ (call = R ∨ GetSuffix m.Function = GetSuffix call) ∧
      pureKids R tbl h n (childInMap m) m.Function = some ts2 ∧ t = nodeOf m ts2 := by
  rw [pureKids_succ] at hp
  obtain ⟨p, hpk, hf⟩ := optionMapList_mem _ _ _ hp t ht
  unfold kids at hpk
  cases hl : mapLookup tbl key with
  | none => simp [hl] at hpk
  | some child =>
    simp only [hl, keptChildren, List.mem_filter] at hpk
    cases hm : h[p]? with
    | none => simp [hm] at hf
    | some m =>
      simp only [hm] at hf
      cases hk : pureKids R tbl h n (childInMap m) m.Function with
      | none => simp [hk] at hf
      | some ts2 =>
        simp only [hk, Option.map_some', Option.some.injEq] at hf
        have hinc : call = R ∨ GetSuffix m.Function = GetSuffix call := by
          have := hpk.2
          simpa [keeps, hm, included] using this
        exact ⟨child, p, m, ts2, rfl, hpk.1, hm, hinc, hk, hf.symm⟩

theorem pureKids_suffix (R : GoString) (tbl : List (GoString × FunctionTracerMetricsDTO))
    (h : Heap)
    (H : ∀ kv ∈ tbl, ∀ m ∈ kv.2.Children.filterMap (fun p => h[p]?), m.Function ≠ R)
    (n : Nat) : ∀ (key call : GoString) (ts : List SnapshotTree), call ≠ R →
      pureKids R tbl h n key call = some ts →
        ∀ t ∈ ts, ∀ d ∈ t.nodes, GetSuffix d.Function = GetSuffix call := by
  induction n with
  | zero => intro key call ts _ hp; simp [pureKids] at hp
  | succ n ih =>
    intro key call ts hne hp t ht d hd
    obtain ⟨child, p, m, ts2, hl, hpc, hm, hinc, hk, rfl⟩ :=
      pureKids_elem R tbl h n key call ts hp t ht
    have hsuf : GetSuffix m.Function = GetSuffix call := by
      rcases hinc with h1 | h1
      · exact absurd h1 hne
      · exact h1
    have hmR : m.Function ≠ R := by
      apply H (key, child) (mem_of_mapLookup tbl key child hl) m
      simp only [List.mem_filterMap]
      exact ⟨p, hpc, hm⟩
    rw [nodes_nodeOf] at hd
    rcases List.mem_cons.1 hd with rfl | hd
    · exact hsuf
    · obtain ⟨t2, ht2, hd2⟩ := (mem_nodesOfList ts2 d).1 hd
      rw [ih _ _ ts2 hmR hk t2 ht2 d hd2, hsuf]

theorem GetName_GetSuffix_append (n T : GoString) (hn : ')' ∈ n) (hfix : GetName n = n) :
    GetName (n ++ T) = n ∧ GetSuffix (n ++ T) = T := by
  have g1 : GetName (n ++ T) = n := (GetName_append_right n T hn).trans hfix
  refine ⟨g1, ?_⟩
  have g2 := GetName_append_GetSuffix (n ++ T)
  rw [g1] at g2
  exact List.append_cancel_left g2

theorem nodeOf_newFunctionMetrics (k f : GoString) (e : Int) (h0 : 0 ≤ e) (h1 : e ≤ MaxInt32)
    (cs : List SnapshotTree) :
    nodeOf (newFunctionMetrics k f e) cs = .node k f 1 e 0 e e cs := by
  obtain ⟨f1, f2, f3, f4, f5, _⟩ := newFunctionMetrics_fields k f e
  obtain ⟨c1, c2⟩ := newFunctionMetrics_ceilings k f e
  unfold nodeOf
  rw [f1, f2, f3, f4, f5, c1, c2, min_eq_left h1, max_eq_left h0]

theorem PointersValid_tracerFresh : PointersValid tracerFresh :=
  PointersValid_SetRoot _ _ PointersValid_NewFunctionTracer

theorem childRecords_tracerFresh (k : GoString) : childRecords tracerFresh k = [] := rfl

theorem filter_map_all {α β : Type} (f : α → β) (q : β → Bool) (l : List α)
    (h : ∀ a, q (f a) = true) : (l.map f).filter q = l.map f := by
  rw [List.filter_eq_self]
  intro b hb
  obtain ⟨a, _, rfl⟩ := List.mem_map.1 hb
  exact h a

theorem filter_map_none {α β : Type} (f : α → β) (q : β → Bool) (l : List α)
    (h : ∀ a, q (f a) = false) : (l.map f).filter q = [] := by
  rw [List.filter_eq_nil_iff]
  intro b hb
  obtain ⟨a, _, rfl⟩ := List.mem_map.1 hb
  simp [h a]

/-! ### The claims -/

/-- Claim C1: one call of `IncreaseFunctionTracer(p, f, start)` with elapsed value `e`
leaves the records of the entry used for parent `p` equal to the old records followed
by exactly one new record with `Function = f`, `Calls = 1`, `TotalTimeMs = e` and no
children; and any number of such calls under the same parent key grows that list by
one record per call, in call order, each with `Calls = 1`, the `TotalTimeMs` summing to
the sum of the elapsed values.  The old records stay, in place and unchanged. -/
theorem IncreaseFunctionTracer_appends_one_record (ft : FunctionTracer)
    (hv : PointersValid ft) (p f : GoString) (e : Int) (calls : List (GoString × Int)) :
    (childRecords (IncreaseFunctionTracer ft p f e) (GetName p)
        = childRecords ft (GetName p) ++ [newFunctionMetrics (GetName p) f e]
      ∧ (newFunctionMetrics (GetName p) f e).Function = f
      ∧ (newFunctionMetrics (GetName p) f e).Calls = 1
      ∧ (newFunctionMetrics (GetName p) f e).TotalTimeMs = e
      ∧ (newFunctionMetrics (GetName p) f e).Children = [])
    ∧ ∃ added : List FunctionTracerMetricsDTO,
        childRecords (observeAll ft (calls.map (fun c => (p, c.1, c.2)))) (GetName p)
          = childRecords ft (GetName p) ++ added
        ∧ added.length = calls.length
        ∧ (∀ r ∈ added, r.Calls = 1 ∧ r.Children = [])
        ∧ added.map (fun r => r.Function) = calls.map (fun c => c.1)
        ∧ added.map (fun r => r.TotalTimeMs) = calls.map (fun c => c.2)
        ∧ (added.map (fun r => r.TotalTimeMs)).sum = (calls.map (fun c => c.2)).sum := by
  have hf := newFunctionMetrics_fields (GetName p) f e
  refine ⟨⟨childRecords_IncreaseFunctionTracer_self ft p f e hv, hf.2.1, hf.2.2.1,
    hf.2.2.2.1, hf.2.2.2.2.2⟩, ?_⟩
  refine ⟨calls.map (fun c => newFunctionMetrics (GetName p) c.1 c.2), ?_, by simp, ?_, ?_, ?_⟩
  · rw [childRecords_observeAll _ ft hv (GetName p)]
    congr 1
    simp [List.filter_map, List.map_map, Function.comp_def, recordOf]
  · intro r hr
    obtain ⟨c, _, rfl⟩ := List.mem_map.1 hr
    have hc := newFunctionMetrics_fields (GetName p) c.1 c.2
    exact ⟨hc.2.2.1, hc.2.2.2.2.2⟩
  · simp only [List.map_map, Function.comp_def]
    apply List.map_congr_left
    intro c _
    exact (newFunctionMetrics_fields (GetName p) c.1 c.2).2.1
  · have h2 : (calls.map (fun c => newFunctionMetrics (GetName p) c.1 c.2)).map
        (fun r => r.TotalTimeMs) = calls.map (fun c => c.2) := by
      simp only [List.map_map, Function.comp_def]
      apply List.map_congr_left
      intro c _
      exact (newFunctionMetrics_fields (GetName p) c.1 c.2).2.2.2.1
    exact ⟨h2, by rw [h2]⟩

/-- Witness for C1: the second observation of the end-to-end scenario. -/
theorem IncreaseFunctionTracer_appends_one_record_witness :
    childRecords (IncreaseFunctionTracer tracerOneCall "A()T".toList "B()T".toList 5)
        (GetName "A()T".toList)
      = childRecords tracerOneCall (GetName "A()T".toList)
          ++ [newFunctionMetrics (GetName "A()T".toList) "B()T".toList 5] :=
  (IncreaseFunctionTracer_appends_one_record tracerOneCall
    (PointersValid_IncreaseFunctionTracer _ _ _ _
      (PointersValid_SetRoot _ _ PointersValid_NewFunctionTracer))
    "A()T".toList "B()T".toList 5 []).1.1

/-- Counterexample to C2 as stated: for the elapsed value `-1` the new record has
`LowerCeiling = -1` and `HigherCeiling = 0`; for `2^31` it has
`LowerCeiling = 2^31 - 1` and `HigherCeiling = 2^31`. -/
theorem new_record_ceilings_differ_out_of_range :
    (IncreaseFunctionTracer tracerFresh "r()T".toList "A()T".toList (-1)).heap.map
        (fun r => (r.LowerCeiling, r.HigherCeiling)) = [(-1, 0)]
    ∧ (IncreaseFunctionTracer tracerFresh "r()T".toList "A()T".toList 2147483648).heap.map
        (fun r => (r.LowerCeiling, r.HigherCeiling)) = [(2147483647, 2147483648)] := by
  decide

/-- Claim C2, amended: for every elapsed value `e` with `0 ≤ e ≤ math.MaxInt32`, the
record that `IncreaseFunctionTracer` allocates for the call has
`LowerCeiling = HigherCeiling = e`. -/
theorem new_record_ceilings_in_range (ft : FunctionTracer) (p f : GoString) (e : Int)
    (h0 : 0 ≤ e) (h1 : e ≤ MaxInt32) :
    (IncreaseFunctionTracer ft p f e).heap
        = ft.heap ++ [newFunctionMetrics (GetName p) f e]
      ∧ (newFunctionMetrics (GetName p) f e).LowerCeiling = e
      ∧ (newFunctionMetrics (GetName p) f e).HigherCeiling = e := by
  have hc := newFunctionMetrics_ceilings (GetName p) f e
  refine ⟨rfl, ?_, ?_⟩
  · rw [hc.1]; exact min_eq_left h1
  · rw [hc.2]; exact max_eq_left h0

/-- Witness for C2 (amended): the elapsed value `math.MaxInt32` itself. -/
theorem new_record_ceilings_in_range_witness :
    (newFunctionMetrics (GetName "r()T".toList) "A()T".toList 2147483647).LowerCeiling
        = 2147483647
      ∧ (newFunctionMetrics (GetName "r()T".toList) "A()T".toList 2147483647).HigherCeiling
        = 2147483647 :=
  (new_record_ceilings_in_range tracerFresh "r()T".toList "A()T".toList 2147483647
    (by decide) (by decide)).2

/-- Claim C3, the code at the failing input: after one observation with `Calls = 1` and
`TotalTimeMs = 10` the snapshot shows that child with `AverageTimeMs = 0`, although
`getAverage 10 1 = 10`; the averages are computed into a local slice that is dropped. -/
theorem snapshot_average_is_not_filled_in :
    (snapshot 2 tracerOneCall).map
        (fun r => r.1.Children.map (fun c => (c.Calls, c.TotalTimeMs, c.AverageTimeMs)))
      = some [(1, 10, 0)]
    ∧ getAverage 10 1 = 10 := by
  refine ⟨by decide, ?_⟩
  norm_num [getAverage]

/-- Counterexample to C5 as stated: two observations under the parent keys `f()T1` and
`f()T2` end up in one table entry, keyed `f()`, whose children slice holds both. -/
theorem two_traces_share_one_table_entry :
    (observeAll tracerFresh
        [("f()T1".toList, "g()T1".toList, 1), ("f()T2".toList, "g()T2".toList, 2)]).metrics.map
      (fun kv => (kv.1, kv.2.Children)) = [("f()".toList, [0, 1])] := by
  decide

/-- Claim C5, amended: for parent keys `n ++ T1` and `n ++ T2` whose common name `n`
contains a `)`, `IncreaseFunctionTracer` uses the same table key `GetName n`, which
carries no trace suffix, and appends both records to that one entry, in call order;
each record keeps the `Function` key it was given. -/
theorem two_traces_same_parent_name_same_entry (ft : FunctionTracer) (hv : PointersValid ft)
    (n T1 T2 f1 f2 : GoString) (e1 e2 : Int) (hn : ')' ∈ n) :
    GetName (n ++ T1) = GetName n ∧ GetName (n ++ T2) = GetName n
      ∧ GetSuffix (GetName n) = []
      ∧ childRecords
          (IncreaseFunctionTracer (IncreaseFunctionTracer ft (n ++ T1) f1 e1) (n ++ T2) f2 e2)
          (GetName n)
        = childRecords ft (GetName n)
            ++ [newFunctionMetrics (GetName n) f1 e1, newFunctionMetrics (GetName n) f2 e2]
      ∧ (newFunctionMetrics (GetName n) f1 e1).Function = f1
      ∧ (newFunctionMetrics (GetName n) f2 e2).Function = f2 := by
  have g1 := GetName_append_right n T1 hn
  have g2 := GetName_append_right n T2 hn
  refine ⟨g1, g2, GetSuffix_GetName n, ?_, (newFunctionMetrics_fields _ _ _).2.1,
    (newFunctionMetrics_fields _ _ _).2.1⟩
  have s1 := childRecords_IncreaseFunctionTracer_self ft (n ++ T1) f1 e1 hv
  have s2 := childRecords_IncreaseFunctionTracer_self
    (IncreaseFunctionTracer ft (n ++ T1) f1 e1) (n ++ T2) f2 e2
    (PointersValid_IncreaseFunctionTracer _ _ _ _ hv)
  rw [g2] at s2
  rw [g1] at s1
  rw [s2, s1]
  simp

/-- Witness for C5 (amended): the name `f()` and the traces `T1`, `T2` on a tracer with
an empty table. -/
theorem two_traces_same_parent_name_same_entry_witness :
    childRecords
        (IncreaseFunctionTracer
          (IncreaseFunctionTracer tracerFresh ("f()".toList ++ "T1".toList) "g()T1".toList 1)
          ("f()".toList ++ "T2".toList) "g()T2".toList 2)
        (GetName "f()".toList)
      = childRecords tracerFresh (GetName "f()".toList)
          ++ [newFunctionMetrics (GetName "f()".toList) "g()T1".toList 1,
              newFunctionMetrics (GetName "f()".toList) "g()T2".toList 2] :=
  (two_traces_same_parent_name_same_entry tracerFresh
    (PointersValid_SetRoot _ _ PointersValid_NewFunctionTracer)
    "f()".toList "T1".toList "T2".toList "g()T1".toList "g()T2".toList 1 2
    (by decide)).2.2.2.1

/-- Claim C6, the code at the failing input: `IncreaseFunctionTracer` never changes the
root, because the suffix is taken from `parentFunctionName`, which `GetName` has
already cut; on an empty table with root `main.main()` and parent key `main.main()T1`
the root stays `main.main()`, while the root followed by the trace id is
`main.main()T1`. -/
theorem IncreaseFunctionTracer_never_suffixes_root :
    (∀ (ft : FunctionTracer) (p f : GoString) (e : Int),
        (IncreaseFunctionTracer ft p f e).root = ft.root)
    ∧ (SetRoot NewFunctionTracer "main.main()".toList).metrics.length = 0
    ∧ (IncreaseFunctionTracer (SetRoot NewFunctionTracer "main.main()".toList)
        "main.main()T1".toList "main.taskA()T1".toList 7).root = "main.main()".toList
    ∧ (SetRoot NewFunctionTracer "main.main()".toList).root
        ++ GetSuffix "main.main()T1".toList = "main.main()T1".toList := by
  refine ⟨IncreaseFunctionTracer_root, ?_, ?_, ?_⟩ <;> decide

/-- Claim C4: in a tracer whose table holds no record whose `Function` key equals the
root, every node `d` below (or at) a direct child `c` of the snapshot root has the same
key suffix as `c`: the subtree of a call of one trace holds no node of another trace. -/
theorem snapshot_subtree_has_one_trace (n : Nat) (ft : FunctionTracer) (t : SnapshotTree)
    (hrun : (snapshot n ft).map Prod.fst = some t)
    (H : ∀ kv ∈ ft.metrics, ∀ m ∈ kv.2.Children.filterMap (fun p => ft.heap[p]?),
      m.Function ≠ ft.root) :
    ∀ c ∈ t.Children, ∀ d ∈ c.nodes, GetSuffix d.Function = GetSuffix c.Function := by
  cases hs : snapshot n ft with
  | none => simp [hs] at hrun
  | some r =>
    obtain ⟨t0, ft1⟩ := r
    simp only [hs, Option.map_some', Option.some.injEq] at hrun
    subst hrun
    obtain ⟨ts, hp, ht, _, _, _⟩ := snapshot_sound n ft ft1 t0 hs
    subst ht
    cases n with
    | zero => simp [pureKids] at hp
    | succ n =>
      intro c hc d hd
      have hc2 : c ∈ ts := hc
      obtain ⟨child, p, m, ts2, hl, hpc, hm, _, hk, rfl⟩ :=
        pureKids_elem _ _ _ n _ _ ts hp c hc2
      have hmR : m.Function ≠ ft.root := by
        apply H (ft.root, child) (mem_of_mapLookup _ _ child hl) m
        simp only [List.mem_filterMap]
        exact ⟨p, hpc, hm⟩
      rw [nodes_nodeOf] at hd
      rcases List.mem_cons.1 hd with rfl | hd
      · rfl
      · obtain ⟨t2, ht2, hd2⟩ := (mem_nodesOfList ts2 d).1 hd
        exact pureKids_suffix _ _ _ H n _ _ ts2 hmR hk t2 ht2 d hd2

/-- Witness for C4: in the snapshot of two traces that called the same functions, the
node `B()T1` below the child `A()T1` carries the suffix of `A()T1`. -/
theorem snapshot_subtree_has_one_trace_witness :
    GetSuffix (SnapshotTree.Function
        (.node "A()".toList "B()T1".toList 1 5 0 5 5 []))
      = GetSuffix (SnapshotTree.Function
        (.node "r()".toList "A()T1".toList 1 10 0 10 10
          [.node "A()".toList "B()T1".toList 1 5 0 5 5 []])) :=
  snapshot_subtree_has_one_trace 3 tracerTwoTraces tracerTwoTracesSnapshot (by rfl)
    (by decide) _ (List.Mem.head _) _ (List.Mem.tail _ (List.Mem.head _))

/-- Claim C7: on a fresh tracer with root `r()` and one trace id `T`, after one
observation `r()+T -> A()+T` (elapsed `a`) and the observations `A()+T -> B()+T` with
elapsed values `ds1 ++ ds2`, the first being recorded after `ds1` and before `ds2`, all
elapsed values in `[0, 2^31-1)`, the snapshot is the root with exactly one child `A`
(`Calls = 1`, `TotalTimeMs = LowerCeiling = HigherCeiling = a`), whose children are exactly
the `B` records in recording order, each with `Calls = 1`, its own elapsed value as
`TotalTimeMs`, and no children.  Any fuel of at least 3 gives this result. -/
theorem end_to_end_snapshot (T : GoString) (a : Int) (ds1 ds2 : List Int) (fuel : Nat)
    (ha : 0 ≤ a ∧ a < MaxInt32) (hd : ∀ d ∈ ds1 ++ ds2, 0 ≤ d ∧ d < MaxInt32) :
    (snapshot (fuel + 3)
        (observeAll tracerFresh
          (ds1.map (observationB T) ++ [observationA T a] ++ ds2.map (observationB T)))).map
      Prod.fst
      = some (.node "r()".toList "r()".toList 0 0 0 MaxInt32 0
          [.node "r()".toList ("A()".toList ++ T) 1 a 0 a a
            ((ds1 ++ ds2).map
              (fun d => .node "A()".toList ("B()".toList ++ T) 1 d 0 d d []))]) := by
  have hr := GetName_GetSuffix_append "r()".toList T (by decide) (by decide)
  have hA := GetName_GetSuffix_append "A()".toList T (by decide) (by decide)
  have hB := GetName_GetSuffix_append "B()".toList T (by decide) (by decide)
  generalize hst : observeAll tracerFresh
    (ds1.map (observationB T) ++ [observationA T a] ++ ds2.map (observationB T)) = st
  have hv : PointersValid st := by
    rw [← hst]; exact PointersValid_observeAll _ _ PointersValid_tracerFresh
  have hroot : st.root = "r()".toList := by
    rw [← hst, observeAll_root]; rfl
  have hrec : ∀ k, childRecords st k
      = ((ds1.map (observationB T) ++ [observationA T a] ++ ds2.map (observationB T)).filter
          (fun o => GetName o.1 = k)).map recordOf := by
    intro k
    rw [← hst, childRecords_observeAll _ _ PointersValid_tracerFresh k,
      childRecords_tracerFresh]
    rfl
  have hnB : ∀ d, GetName (observationB T d).1 = "A()".toList := fun _ => hA.1
  have hnA : GetName (observationA T a).1 = "r()".toList := hr.1
  have recB : ∀ d, recordOf (observationB T d)
      = newFunctionMetrics "A()".toList ("B()".toList ++ T) d := by
    intro d; unfold recordOf; rw [hnB]; rfl
  have recA : recordOf (observationA T a)
      = newFunctionMetrics "r()".toList ("A()".toList ++ T) a := by
    unfold recordOf; rw [hnA]; rfl
  have hkr : childRecords st "r()".toList
      = [newFunctionMetrics "r()".toList ("A()".toList ++ T) a] := by
    rw [hrec, List.filter_append, List.filter_append,
      filter_map_none (observationB T) _ ds1 (by intro d; rw [hnB]; decide),
      filter_map_none (observationB T) _ ds2 (by intro d; rw [hnB]; decide)]
    simp [hnA, recA]
  have hkA : childRecords st "A()".toList
      = (ds1 ++ ds2).map (fun d => newFunctionMetrics "A()".toList ("B()".toList ++ T) d) := by
    rw [hrec, List.filter_append, List.filter_append,
      filter_map_all (observationB T) _ ds1 (by intro d; rw [hnB]; decide),
      filter_map_all (observationB T) _ ds2 (by intro d; rw [hnB]; decide)]
    have : ([observationA T a].filter (fun o => decide (GetName o.1 = "A()".toList))) = [] := by
      rw [List.filter_eq_nil_iff]
      intro o ho
      have : o = observationA T a := by simpa using ho
      subst this
      rw [hnA]; decide
    rw [this]
    simp [List.map_map, Function.comp_def, recB]
  have hkB : childRecords st "B()".toList = [] := by
    rw [hrec, List.filter_append, List.filter_append,
      filter_map_none (observationB T) _ ds1 (by intro d; rw [hnB]; decide),
      filter_map_none (observationB T) _ ds2 (by intro d; rw [hnB]; decide)]
    have : ([observationA T a].filter (fun o => decide (GetName o.1 = "B()".toList))) = [] := by
      rw [List.filter_eq_nil_iff]
      intro o ho
      have : o = observationA T a := by simpa using ho
      subst this
      rw [hnA]; decide
    rw [this]
    rfl
  -- the level of `B`: no entry is stored under `B()`
  have cB : ∀ d, childInMap (newFunctionMetrics "A()".toList ("B()".toList ++ T) d)
      = "B()".toList := by
    intro d
    have f := newFunctionMetrics_fields "A()".toList ("B()".toList ++ T) d
    unfold childInMap
    rw [f.1, f.2.1, hB.1]
    decide
  have cA : childInMap (newFunctionMetrics "r()".toList ("A()".toList ++ T) a)
      = "A()".toList := by
    have f := newFunctionMetrics_fields "r()".toList ("A()".toList ++ T) a
    unfold childInMap
    rw [f.1, f.2.1, hA.1]
    decide
  have pB : ∀ call, pureKids st.root st.metrics st.heap (fuel + 1) "B()".toList call
      = some [] := by
    intro call
    rw [pureKids_childRecords st hv, hkB]
    rfl
  have pA : pureKids st.root st.metrics st.heap (fuel + 2) "A()".toList ("A()".toList ++ T)
      = some ((ds1 ++ ds2).map
          (fun d => .node "A()".toList ("B()".toList ++ T) 1 d 0 d d [])) := by
    rw [pureKids_childRecords st hv, hkA]
    have hall : ((ds1 ++ ds2).map
        (fun d => newFunctionMetrics "A()".toList ("B()".toList ++ T) d)).filter
          (included st.root ("A()".toList ++ T))
        = (ds1 ++ ds2).map
            (fun d => newFunctionMetrics "A()".toList ("B()".toList ++ T) d) := by
      apply filter_map_all
      intro d
      have f := newFunctionMetrics_fields "A()".toList ("B()".toList ++ T) d
      unfold included
      rw [f.2.1, hB.2, hA.2]
      exact decide_eq_true (Or.inr rfl)
    rw [hall]
    have hsome := optionMapList_some
      (fun m => (pureKids st.root st.metrics st.heap (fuel + 1) (childInMap m) m.Function).map
        (nodeOf m))
      (fun m => nodeOf m [])
      ((ds1 ++ ds2).map (fun d => newFunctionMetrics "A()".toList ("B()".toList ++ T) d))
      (by
        intro m hm
        obtain ⟨d, _, rfl⟩ := List.mem_map.1 hm
        simp only [cB, pB, Option.map_some'])
    rw [hsome, List.map_map]
    congr 1
    apply List.map_congr_left
    intro d hdm
    have := hd d hdm
    exact nodeOf_newFunctionMetrics _ _ d this.1 (le_of_lt this.2) []
  have pR : pureKids st.root st.metrics st.heap (fuel + 3) st.root st.root
      = some [.node "r()".toList ("A()".toList ++ T) 1 a 0 a a
          ((ds1 ++ ds2).map
            (fun d => .node "A()".toList ("B()".toList ++ T) 1 d 0 d d []))] := by
    have hkr2 : childRecords st st.root
        = [newFunctionMetrics "r()".toList ("A()".toList ++ T) a] := by
      rw [hroot]; exact hkr
    rw [pureKids_childRecords st hv, hkr2]
    have hinc : included st.root st.root
        (newFunctionMetrics "r()".toList ("A()".toList ++ T) a) = true :=
      decide_eq_true (Or.inl rfl)
    have hfil : [newFunctionMetrics "r()".toList ("A()".toList ++ T) a].filter
        (included st.root st.root)
        = [newFunctionMetrics "r()".toList ("A()".toList ++ T) a] := by
      simp only [List.filter_cons, hinc, if_true, List.filter_nil]
    rw [hfil]
    have hsome := optionMapList_some
      (fun m => (pureKids st.root st.metrics st.heap (fuel + 2) (childInMap m) m.Function).map
        (nodeOf m))
      (fun _ => SnapshotTree.node "r()".toList ("A()".toList ++ T) 1 a 0 a a
          ((ds1 ++ ds2).map
            (fun d => .node "A()".toList ("B()".toList ++ T) 1 d 0 d d [])))
      [newFunctionMetrics "r()".toList ("A()".toList ++ T) a]
      (by
        intro m hm
        have hmeq : m = newFunctionMetrics "r()".toList ("A()".toList ++ T) a := by
          simpa using hm
        subst hmeq
        simp only [cA]
        rw [(newFunctionMetrics_fields "r()".toList ("A()".toList ++ T) a).2.1, pA]
        simp only [Option.map_some']
        rw [nodeOf_newFunctionMetrics _ _ a ha.1 (le_of_lt ha.2)])
    rw [hsome]
    rfl
  obtain ⟨ft1, hsnap⟩ := snapshot_complete (fuel + 3) st hv _ pR
  rw [hsnap, hroot]
  rfl

/-- Witness for C7: `B` recorded with 5 ms, then `A` with 10 ms, then `B` with 15 ms;
the two `B` entries have total 20, least lower ceiling 5, greatest higher ceiling 15. -/
theorem end_to_end_snapshot_witness :
    (snapshot 3
        (observeAll tracerFresh
          [observationB "T".toList 5, observationA "T".toList 10,
            observationB "T".toList 15])).map Prod.fst
      = some (.node "r()".toList "r()".toList 0 0 0 MaxInt32 0
          [.node "r()".toList "A()T".toList 1 10 0 10 10
            [.node "A()".toList "B()T".toList 1 5 0 5 5 [],
             .node "A()".toList "B()T".toList 1 15 0 15 15 []]])
    ∧ (5 : Int) + 15 = 20 ∧ min (5 : Int) 15 = 5 ∧ max (5 : Int) 15 = 15 :=
  ⟨end_to_end_snapshot "T".toList 10 [5] [15] 0 (by decide) (by decide),
    by decide, by decide, by decide⟩

/-- Claim C8: after `Clear()` the table has zero entries and `GetRoot()` returns what it
returned before; a snapshot taken right after `Clear()` (any fuel of at least 1) is a
record whose `Function` is that root and whose children list is empty; and after
`Clear()` followed by observations `obs`, every table entry is keyed by the parent name
of one of those observations and every child it holds is a record allocated after the
clear for one of those observations. -/
theorem Clear_empties_table_and_keeps_root (ft : FunctionTracer) (fuel : Nat)
    (obs : List (GoString × GoString × Int)) :
    (Clear ft).metrics.length = 0
    ∧ GetRoot (Clear ft) = GetRoot ft
    ∧ (snapshot (fuel + 1) (Clear ft)).map Prod.fst
        = some (.node (GetRoot ft) (GetRoot ft) 0 0 0 MaxInt32 0 [])
    ∧ ∀ k child, mapLookup (observeAll (Clear ft) obs).metrics k = some child →
        (∃ o ∈ obs, k = GetName o.1) ∧
          ∀ p ∈ child.Children, ft.heap.length ≤ p ∧
            ∃ o ∈ obs, (observeAll (Clear ft) obs).heap[p]? = some (recordOf o) := by
  refine ⟨rfl, rfl, rfl, ?_⟩
  intro k child hl
  have hinv := observeAll_entries obs (Clear ft) ft.heap.length []
    (by intro k2 c2 h2; simp [Clear, mapLookup] at h2) (Nat.le_refl _) k child hl
  refine ⟨by simpa using hinv.1, ?_⟩
  intro p hp
  obtain ⟨hlo, hhi⟩ := hinv.2 p hp
  refine ⟨hlo, ?_⟩
  rw [observeAll_heap] at hhi ⊢
  have hheap : (Clear ft).heap = ft.heap := rfl
  rw [hheap] at hhi ⊢
  have hhi2 : p < ft.heap.length + obs.length := by
    simpa only [List.length_append, List.length_map] using hhi
  have hidx : p - ft.heap.length < obs.length := Nat.sub_lt_left_of_lt_add hlo hhi2
  refine ⟨obs[p - ft.heap.length], List.getElem_mem _, ?_⟩
  rw [List.getElem?_append_right hlo, List.getElem?_map, List.getElem?_eq_getElem hidx]
  rfl

/-- Claim C9: if a snapshot of a tracer state returns, a second snapshot taken right
after it returns too, and both show the same tree, although the first call has
overwritten the `Children` of the records the table points to. -/
theorem snapshot_twice_same_tree (n : Nat) (ft : FunctionTracer)
    (hterm : (snapshot n ft).isSome = true) :
    ∃ t ft1 ft2, snapshot n ft = some (t, ft1) ∧ snapshot n ft1 = some (t, ft2) := by
  cases hs : snapshot n ft with
  | none => simp [hs] at hterm
  | some r =>
    obtain ⟨t, ft1⟩ := r
    obtain ⟨ts, hp, ht, hr1, hm1, hsk⟩ := snapshot_sound n ft ft1 t hs
    obtain ⟨ps, hg⟩ := GetTreeOn_of_snapshot n ft ft1 t hs
    cases n with
    | zero => simp [pureKids] at hp
    | succ n =>
      obtain ⟨r2, hg2⟩ := GetTreeOn_sim ft.root ft.metrics (n + 1) ft.heap ft1.heap
        ft.root ft.root hsk.symm ⟨_, hg⟩
      obtain ⟨ps2, h2⟩ := r2
      rw [← hr1, ← hm1] at hg2
      obtain ⟨ts2, hp2, hs2⟩ := snapshot_of_GetTreeOn n ft1 ps2 h2 hg2
      rw [hr1, hm1, pureKids_congr ft.root ft.metrics hsk (n + 1) ft.root ft.root, hp] at hp2
      injection hp2 with hp2
      subst hp2
      refine ⟨t, ft1, { ft1 with heap := h2 }, rfl, ?_⟩
      rw [hs2, ht, hr1]

/-- Witness for C9: the tracer holding two traces, with fuel 3. -/
theorem snapshot_twice_same_tree_witness :
    ∃ t ft1 ft2, snapshot 3 tracerTwoTraces = some (t, ft1) ∧ snapshot 3 ft1 = some (t, ft2) :=
  snapshot_twice_same_tree 3 tracerTwoTraces (by decide)

end metrics

namespace telemetry

/-- Claim C10: after `Disable()`, `IsEnabled()` is false and the aggregator is exactly
what `Clear()` produces, a table with zero entries and the root unchanged; after
`Enable()`, `IsEnabled()` is true and the aggregator is unchanged. -/
theorem Disable_clears_and_Enable_keeps_table (t : telemetry) :
    (t.Disable).IsEnabled = false
    ∧ (t.Disable).functionTracer.metrics.length = 0
    ∧ (t.Disable).functionTracer = (t.Clear).functionTracer
    ∧ (t.Disable).functionTracer = metrics.Clear t.functionTracer
    ∧ (t.Disable).GetRoot = t.GetRoot
    ∧ (t.Enable).IsEnabled = true
    ∧ (t.Enable).functionTracer = t.functionTracer :=
  ⟨rfl, rfl, rfl, rfl, rfl, rfl, rfl⟩

end telemetry

namespace metrics

/-! ### `GetTree` as a filter of the stored children -/

theorem GetTreeExpanded_eq_pureKids (n : Nat) (ft : FunctionTracer) (hv : PointersValid ft)
    (k q : GoString) :
    GetTreeExpanded n ft k q = pureKids ft.root ft.metrics ft.heap n k q := by
  cases n with
  | zero => rfl
  | succ n =>
    unfold GetTreeExpanded GetTree
    cases hg : GetTreeOn ft.root ft.metrics (n + 1) ft.heap k q with
    | none =>
      cases hp : pureKids ft.root ft.metrics ft.heap (n + 1) k q with
      | none => rfl
      | some ts =>
        obtain ⟨r, hr⟩ := GetTreeOn_complete ft.root ft.metrics ft.heap hv (n + 1) ft.heap
          k q rfl ⟨ts, hp⟩
        rw [hg] at hr
        cases hr
    | some r =>
      obtain ⟨ps, h1⟩ := r
      obtain ⟨_, _, ts, hts, hrd⟩ := GetTreeOn_render _ _ n _ _ _ ps h1 hg
      rw [hts]
      exact hrd

theorem GetTree_eq_some (fuel : Nat) (ft : FunctionTracer) (k q : GoString) (cs : List Ptr)
    (ft1 : FunctionTracer) (h : GetTree fuel ft k q = some (cs, ft1)) :
    GetTreeOn ft.root ft.metrics fuel ft.heap k q = some (cs, ft1.heap) ∧
      ft1.root = ft.root ∧ ft1.metrics = ft.metrics := by
  unfold GetTree at h
  cases hg : GetTreeOn ft.root ft.metrics fuel ft.heap k q with
  | none => simp [hg] at h
  | some r =>
    simp only [hg, Option.map_some', Option.some.injEq, Prod.mk.injEq] at h
    obtain ⟨rfl, rfl⟩ := h
    exact ⟨rfl, rfl, rfl⟩

/-- Claim C14: when `GetTree(k, q)` returns, the slice it returns is the children slice
stored under `k` filtered, in the same relative order, by the test
`q = Root or GetSuffix(child.Function) = GetSuffix(q)`, and the table and root are as
before; and what the caller sees is that filtered list of records, each kept child
showing as its children the result of
`GetTree(GetName(child.Function) + GetSuffix(child.Parent), child.Function)`. -/
theorem GetTree_filters_stored_children (n : Nat) (ft : FunctionTracer)
    (hv : PointersValid ft) (k q : GoString) :
    (∀ cs ft1, GetTree (n + 1) ft k q = some (cs, ft1) →
        cs = (((mapLookup ft.metrics k).map (fun child => child.Children)).getD []).filter
              (fun p => match ft.heap[p]? with
                | none => false
                | some m => decide (q = ft.root ∨ GetSuffix m.Function = GetSuffix q))
          ∧ ft1.root = ft.root ∧ ft1.metrics = ft.metrics)
    ∧ GetTreeExpanded (n + 1) ft k q
        = optionMapList
            (fun m => (GetTreeExpanded n ft (GetName m.Function ++ GetSuffix m.Parent)
              m.Function).map (nodeOf m))
            ((childRecords ft k).filter
              (fun m => decide (q = ft.root ∨ GetSuffix m.Function = GetSuffix q))) := by
  constructor
  · intro cs ft1 hrun
    obtain ⟨hg, hr, hm⟩ := GetTree_eq_some _ _ _ _ _ _ hrun
    refine ⟨?_, hr, hm⟩
    rw [(GetTreeOn_sound ft.root ft.metrics n ft.heap k q cs ft1.heap hg).1]
    unfold kids
    cases mapLookup ft.metrics k with
    | none => rfl
    | some child => rfl
  · rw [GetTreeExpanded_eq_pureKids (n + 1) ft hv, pureKids_childRecords ft hv]
    apply optionMapList_congr
    intro m _
    rw [GetTreeExpanded_eq_pureKids n ft hv]
    rfl

/-- Witness for C14: the entry `A()` of the tracer holding two traces, asked for on
behalf of the call `A()T1`, shows the one child `B()T1`. -/
theorem GetTree_filters_stored_children_witness :
    GetTreeExpanded 2 tracerTwoTraces "A()".toList "A()T1".toList
      = optionMapList
          (fun m => (GetTreeExpanded 1 tracerTwoTraces
            (GetName m.Function ++ GetSuffix m.Parent) m.Function).map (nodeOf m))
          ((childRecords tracerTwoTraces "A()".toList).filter
            (fun m => decide ("A()T1".toList = tracerTwoTraces.root
              ∨ GetSuffix m.Function = GetSuffix "A()T1".toList))) :=
  (GetTree_filters_stored_children 1 tracerTwoTraces
    (PointersValid_observeAll _ _ PointersValid_tracerFresh)
    "A()".toList "A()T1".toList).2

/-- Claim C15: for a key `k` with no entry in the table, `GetTree(k, q)` returns the empty
slice for every `q` and leaves the tracer as it was (any fuel of at least 1); nothing
fails. -/
theorem GetTree_of_missing_key (fuel : Nat) (ft : FunctionTracer) (k q : GoString)
    (hk : mapLookup ft.metrics k = none) :
    GetTree (fuel + 1) ft k q = some ([], ft)
      ∧ GetTreeExpanded (fuel + 1) ft k q = some [] := by
  have h1 : GetTree (fuel + 1) ft k q = some ([], ft) := by
    unfold GetTree GetTreeOn
    simp only [hk, Option.map_some']
  refine ⟨h1, ?_⟩
  unfold GetTreeExpanded
  rw [h1]
  rfl

/-- Witness for C15: `B()` was never observed as a parent in the tracer holding two
traces. -/
theorem GetTree_of_missing_key_witness :
    GetTree 1 tracerTwoTraces "B()".toList "B()T1".toList = some ([], tracerTwoTraces)
      ∧ GetTreeExpanded 1 tracerTwoTraces "B()".toList "B()T1".toList = some [] :=
  GetTree_of_missing_key 0 tracerTwoTraces "B()".toList "B()T1".toList (by decide)

/-! ### Recursive calls -/

theorem GetTreeOn_single_child_none (R : GoString)
    (tbl : List (GoString × FunctionTracerMetricsDTO)) (n : Nat) (h : Heap)
    (key call key2 call2 : GoString) (child m : FunctionTracerMetricsDTO) (p : Ptr)
    (hl : mapLookup tbl key = some child) (hc : child.Children = [p])
    (hm : h[p]? = some m)
    (hinc : call = R ∨ GetSuffix m.Function = GetSuffix call)
    (hk : GetName m.Function ++ GetSuffix m.Parent = key2) (hf : m.Function = call2)
    (hrec : GetTreeOn R tbl n h key2 call2 = none) :
    GetTreeOn R tbl (n + 1) h key call = none := by
  subst hk
  subst hf
  unfold GetTreeOn
  simp only [hl]
  rw [hc]
  unfold GetTreeLoop
  simp only [hm, hinc, if_true, hrec]

theorem tracerRecursive_inner_diverges : ∀ fuel : Nat,
    GetTreeOn tracerRecursive.root tracerRecursive.metrics fuel tracerRecursive.heap
      "A()".toList "A()T".toList = none := by
  intro fuel
  induction fuel with
  | zero => rfl
  | succ n ih =>
    exact GetTreeOn_single_child_none _ _ n _ "A()".toList "A()T".toList
      "A()".toList "A()T".toList
      { freshDTO "A()".toList "A()".toList with Children := [0] }
      (newFunctionMetrics "A()".toList "A()T".toList 3) 0
      (by decide) rfl (by decide) (Or.inr rfl) (by decide) (by decide) ih

/-- Claim C16, the code at the failing input: after the two observations of a recursive
call in one trace (`A()` recorded with parent `A()`, then `A()` recorded with parent
`r()`), a state reachable from `NewFunctionTracer`, `GetFunctionTracerMetrics` does not
return for any amount of fuel: `GetTree("A()", "A()T")` calls itself with the same
arguments. -/
theorem GetFunctionTracerMetrics_diverges_on_recursion :
    Reachable tracerRecursive
    ∧ ∀ fuel : Nat, GetFunctionTracerMetrics fuel tracerRecursive = none
        ∧ snapshot fuel tracerRecursive = none := by
  constructor
  · exact Reachable.increase _ _ _ _
      (Reachable.increase _ _ _ _ (Reachable.setRoot _ _ Reachable.new))
  · intro fuel
    have hg : GetTreeOn tracerRecursive.root tracerRecursive.metrics fuel
        tracerRecursive.heap tracerRecursive.root tracerRecursive.root = none := by
      cases fuel with
      | zero => rfl
      | succ n =>
        exact GetTreeOn_single_child_none _ _ n _ _ _ "A()".toList "A()T".toList
          { freshDTO "r()".toList "r()".toList with Children := [1] }
          (newFunctionMetrics "r()".toList "A()T".toList 10) 1
          (by decide) rfl (by decide) (Or.inl rfl) (by decide) (by decide)
          (tracerRecursive_inner_diverges n)
    have h1 : GetFunctionTracerMetrics fuel tracerRecursive = none := by
      unfold GetFunctionTracerMetrics GetFunctionTracerMetricsLocals GetTree
      rw [hg]
      rfl
    refine ⟨h1, ?_⟩
    unfold snapshot
    rw [h1]

/-! ### Invariants of the records -/

theorem skel_forall_fields (P : FunctionTracerMetricsDTO → Prop)
    (hP : ∀ a b, stripChildren a = stripChildren b → P a → P b) {h h1 : Heap}
    (hs : skel h1 = skel h) (hall : ∀ r ∈ h, P r) : ∀ r ∈ h1, P r := by
  intro r hr
  obtain ⟨i, hi⟩ := List.getElem?_of_mem hr
  rcases static_cases hs i with ⟨e1, _⟩ | ⟨a, b, e1, e2, e3⟩
  · rw [e1] at hi; cases hi
  · rw [e1] at hi
    injection hi with hi
    subst hi
    exact hP b a e3.symm (hall b (List.getElem?_mem e2))

theorem GetFunctionTracerMetrics_skel (fuel : Nat) (ft ft1 : FunctionTracer)
    (d : FunctionTracerMetricsDTO) (h : GetFunctionTracerMetrics fuel ft = some (d, ft1)) :
    skel ft1.heap = skel ft.heap ∧ ft1.root = ft.root ∧ ft1.metrics = ft.metrics := by
  unfold GetFunctionTracerMetrics GetFunctionTracerMetricsLocals at h
  cases hg : GetTree fuel ft ft.root ft.root with
  | none => simp [hg] at h
  | some r =>
    obtain ⟨cs, ft2⟩ := r
    simp only [hg, Option.map_some', Option.some.injEq, Prod.mk.injEq] at h
    obtain ⟨_, rfl⟩ := h
    obtain ⟨hg2, hr, hm⟩ := GetTree_eq_some _ _ _ _ _ _ hg
    exact ⟨GetTreeOn_skel _ _ _ _ _ _ _ _ hg2, hr, hm⟩

/-- Every record ever allocated in a reachable state was made by `newFunctionMetrics`,
up to its `Children`. -/
theorem Reachable_heap_records (ft : FunctionTracer) (hr : Reachable ft) :
    ∀ r ∈ ft.heap, ∃ k f e, stripChildren r = stripChildren (newFunctionMetrics k f e) := by
  induction hr with
  | new => intro r hr; simp [NewFunctionTracer] at hr
  | setRoot ft root _ ih => exact ih
  | increase ft p f e _ ih =>
    intro r hr
    rw [IncreaseFunctionTracer_heap] at hr
    rcases List.mem_append.1 hr with h1 | h1
    · exact ih r h1
    · have : r = newFunctionMetrics (GetName p) f e := by simpa using h1
      exact ⟨GetName p, f, e, by rw [this]⟩
  | clear ft _ ih => exact ih
  | getMetrics ft ft1 fuel d _ hrun ih =>
    have hs := (GetFunctionTracerMetrics_skel fuel ft ft1 d hrun).1
    exact skel_forall_fields
      (fun r => ∃ k f e, stripChildren r = stripChildren (newFunctionMetrics k f e))
      (fun a b hab ⟨k, f, e, hk⟩ => ⟨k, f, e, hab.symm.trans hk⟩) hs ih

theorem childRecords_subset_heap (ft : FunctionTracer) (k : GoString) :
    ∀ r ∈ childRecords ft k, r ∈ ft.heap := by
  intro r hr
  unfold childRecords at hr
  cases hl : mapLookup ft.metrics k with
  | none => simp [hl] at hr
  | some child =>
    simp only [hl, List.mem_filterMap] at hr
    obtain ⟨p, _, hp⟩ := hr
    exact List.getElem?_mem hp

theorem pureKids_nodes_from_heap (R : GoString)
    (tbl : List (GoString × FunctionTracerMetricsDTO)) (h : Heap) (n : Nat) :
    ∀ (key call : GoString) (ts : List SnapshotTree),
      pureKids R tbl h n key call = some ts →
        ∀ t ∈ ts, ∀ d ∈ t.nodes, ∃ m ∈ h, ∃ ts2, d = nodeOf m ts2 := by
  induction n with
  | zero => intro key call ts hp; simp [pureKids] at hp
  | succ n ih =>
    intro key call ts hp t ht d hd
    obtain ⟨child, p, m, ts2, _, _, hm, _, hk, rfl⟩ :=
      pureKids_elem R tbl h n key call ts hp t ht
    rw [nodes_nodeOf] at hd
    rcases List.mem_cons.1 hd with rfl | hd
    · exact ⟨m, List.getElem?_mem hm, ts2, rfl⟩
    · obtain ⟨t2, ht2, hd2⟩ := (mem_nodesOfList ts2 d).1 hd
      exact ih _ _ ts2 hk t2 ht2 d hd2

/-- Claim C17: in every reachable tracer state, every record in the children list of a
table entry, and every node of a snapshot other than its root, has `Calls = 1` and
`LowerCeiling <= HigherCeiling`, whatever elapsed values were recorded. -/
theorem reachable_children_calls_and_ceilings (ft : FunctionTracer) (hr : Reachable ft) :
    (∀ k, ∀ r ∈ childRecords ft k, r.Calls = 1 ∧ r.LowerCeiling ≤ r.HigherCeiling)
    ∧ ∀ fuel t ft1, snapshot fuel ft = some (t, ft1) →
        ∀ c ∈ t.Children, ∀ d ∈ c.nodes, d.Calls = 1 ∧ d.LowerCeiling ≤ d.HigherCeiling := by
  have hheap : ∀ r ∈ ft.heap, r.Calls = 1 ∧ r.LowerCeiling ≤ r.HigherCeiling := by
    intro r hrm
    obtain ⟨k, f, e, hk⟩ := Reachable_heap_records ft hr r hrm
    have h1 : r.Calls = (newFunctionMetrics k f e).Calls :=
      congrArg (fun x => x.Calls) hk
    have h2 : r.LowerCeiling = (newFunctionMetrics k f e).LowerCeiling :=
      congrArg (fun x => x.LowerCeiling) hk
    have h3 : r.HigherCeiling = (newFunctionMetrics k f e).HigherCeiling :=
      congrArg (fun x => x.HigherCeiling) hk
    obtain ⟨c1, c2⟩ := newFunctionMetrics_ceilings k f e
    rw [h1, h2, h3, c1, c2, (newFunctionMetrics_fields k f e).2.2.1]
    exact ⟨rfl, le_trans (min_le_left _ _) (le_max_left _ _)⟩
  constructor
  · intro k r hrm
    exact hheap r (childRecords_subset_heap ft k r hrm)
  · intro fuel t ft1 hs c hc d hd
    obtain ⟨ts, hp, ht, _, _, _⟩ := snapshot_sound fuel ft ft1 t hs
    subst ht
    have hc2 : c ∈ ts := hc
    obtain ⟨m, hm, ts2, rfl⟩ :=
      pureKids_nodes_from_heap _ _ _ fuel _ _ ts hp c hc2 d hd
    exact hheap m hm

/-- Witness for C17: the record of `B()T1` stored under `A()` in the tracer holding two
traces. -/
theorem reachable_children_calls_and_ceilings_witness :
    (newFunctionMetrics "A()".toList "B()T1".toList 5).Calls = 1
      ∧ (newFunctionMetrics "A()".toList "B()T1".toList 5).LowerCeiling
          ≤ (newFunctionMetrics "A()".toList "B()T1".toList 5).HigherCeiling :=
  (reachable_children_calls_and_ceilings tracerTwoTraces
    (Reachable.increase _ _ _ _ (Reachable.increase _ _ _ _ (Reachable.increase _ _ _ _
      (Reachable.increase _ _ _ _ (Reachable.setRoot _ _ Reachable.new)))))).1
    "A()".toList (newFunctionMetrics "A()".toList "B()T1".toList 5) (by decide)

end metrics

namespace telemetry

open metrics

theorem FunctionName_of_CallID_ne_nil (site : CallSite) (context : Context)
    (h : context.CallID ≠ []) :
    FunctionName site context
      = some { ParentFunctionName := GetName context.FunctionName ++ context.CallID
               FunctionName := getFunctionName site ++ context.CallID
               CallID := context.CallID } := by
  unfold FunctionName
  simp only [h, if_false, Option.map_some']
  rfl

theorem deriveChain_CallID (sites : List CallSite) :
    ∀ context : Context, context.CallID ≠ [] →
      ∃ cs, deriveChain sites context = some cs ∧ cs.length = sites.length ∧
        ∀ c ∈ cs, c.CallID = context.CallID := by
  induction sites with
  | nil => intro context _; exact ⟨[], rfl, rfl, by simp⟩
  | cons site rest ih =>
    intro context h
    have h1 := FunctionName_of_CallID_ne_nil site context h
    generalize hc1 : ({ ParentFunctionName := GetName context.FunctionName ++ context.CallID
                        FunctionName := getFunctionName site ++ context.CallID
                        CallID := context.CallID } : Context) = c1 at h1
    have hid : c1.CallID = context.CallID := by rw [← hc1]
    obtain ⟨cs, hcs, hlen, hall⟩ := ih c1 (by rw [hid]; exact h)
    refine ⟨c1 :: cs, ?_, ?_, ?_⟩
    · unfold deriveChain
      rw [h1]
      simp only [hcs]
    · simp [hlen]
    · intro c hc
      rcases List.mem_cons.1 hc with rfl | hc
      · exact hid
      · rw [hall c hc, hid]

/-- Claim C11: for an incoming context whose `CallID` is not empty, `FunctionName`
returns a context with the same `CallID`, so every context derived along a chain of
call sites starting from it (a branch is such a chain) carries that `CallID`.  The
incoming context is passed by value: the function has no way to change it. -/
theorem FunctionName_propagates_CallID (site : CallSite) (context : Context)
    (sites : List CallSite) (h : context.CallID ≠ []) :
    (∃ c, FunctionName site context = some c ∧ c.CallID = context.CallID)
    ∧ ∃ cs, deriveChain sites context = some cs ∧ cs.length = sites.length ∧
        ∀ c ∈ cs, c.CallID = context.CallID :=
  ⟨⟨_, FunctionName_of_CallID_ne_nil site context h, rfl⟩, deriveChain_CallID sites context h⟩

/-- Witness for C11: a context of trace `+0x1d` entering `main.taskB`. -/
theorem FunctionName_propagates_CallID_witness :
    ∃ c, FunctionName siteTaskB tracedContext = some c ∧ c.CallID = tracedContext.CallID :=
  (FunctionName_propagates_CallID siteTaskB tracedContext [siteGetRows, siteTaskB]
    (by decide)).1

/-- Claim C12, the code at the failing input: the context derived inside
`pkg.(*RowGetter).GetRows` has `FunctionName = "pkg.(*RowGetter).GetRows()+0x1d"`, and the
context derived from it inside a callee has `ParentFunctionName = "pkg.(*RowGetter)+0x1d"`:
the parent key is cut at the first `)` of the name, which for a method with a pointer
receiver is not the one that ends it.  For a name without `)` the two keys agree, and
both keys of a derived context always end with its `CallID`. -/
theorem FunctionName_parent_key_of_method_differs :
    ((FunctionName siteGetRows seedContext).bind
        (fun c1 => (FunctionName siteTaskB c1).map
          (fun c2 => (c1.FunctionName, c2.ParentFunctionName, c2.FunctionName, c2.CallID))))
      = some ("pkg.(*RowGetter).GetRows()+0x1d".toList, "pkg.(*RowGetter)+0x1d".toList,
          "main.taskB()+0x1d".toList, "+0x1d".toList)
    ∧ (∀ (site1 site2 : CallSite) (c0 c1 c2 : Context),
        site1.success = true → ')' ∉ site1.funcName → c1.CallID ≠ [] →
        FunctionName site1 c0 = some c1 → FunctionName site2 c1 = some c2 →
          c2.ParentFunctionName = c1.FunctionName)
    ∧ (∀ (site : CallSite) (c c2 : Context), FunctionName site c = some c2 →
        c2.CallID <:+ c2.ParentFunctionName ∧ c2.CallID <:+ c2.FunctionName) := by
  refine ⟨by decide, ?_, ?_⟩
  · intro site1 site2 c0 c1 c2 hs hf hid h1 h2
    rw [FunctionName_of_CallID_ne_nil site2 c1 hid] at h2
    injection h2 with h2
    subst h2
    simp only
    have hfn : c1.FunctionName = (site1.funcName ++ ['(']) ++ ')' :: c1.CallID := by
      unfold FunctionName at h1
      by_cases hc0 : c0.CallID = []
      · simp only [hc0, if_true] at h1
        cases hl : site1.stackFields.getLast? with
        | none => simp [hl] at h1
        | some last =>
          simp only [hl, Option.map_some', Option.some.injEq] at h1
          subst h1
          simp [getFunctionName, hs]
      · simp only [hc0, if_false, Option.map_some', Option.some.injEq] at h1
        subst h1
        simp [getFunctionName, hs]
    have hnot : ')' ∉ site1.funcName ++ ['('] := by
      simp only [List.mem_append, List.mem_singleton, not_or]
      exact ⟨hf, by decide⟩
    rw [hfn, GetName_append_cons _ _ hnot]
    simp
  · intro site c c2 h
    unfold FunctionName at h
    by_cases hc0 : c.CallID = []
    · simp only [hc0, if_true] at h
      cases hl : site.stackFields.getLast? with
      | none => simp [hl] at h
      | some last =>
        simp only [hl, Option.map_some', Option.some.injEq] at h
        subst h
        exact ⟨List.suffix_append _ _, List.suffix_append _ _⟩
    · simp only [hc0, if_false, Option.map_some', Option.some.injEq] at h
      subst h
      exact ⟨List.suffix_append _ _, List.suffix_append _ _⟩

/-- Claim C13, the code at the failing input: `t.GetMetricsJSON()` does not depend on `t`
at all; for a telemetry object `t` of its own that recorded one call it returns the
serialisation of the snapshot of the process-wide object, which is the bare root when
that object's table is empty and a tree of two traces when it holds two traces, and in
neither case the snapshot of `t`'s own aggregator. -/
theorem GetMetricsJSON_reads_the_global_object
    (jsonMarshal : SnapshotTree → Option GoString) :
    (∀ (fuel : Nat) (g t1 t2 : telemetry),
        t1.GetMetricsJSON jsonMarshal fuel g = t2.GetMetricsJSON jsonMarshal fuel g)
    ∧ (telemetryOneCall.GetMetricsJSON jsonMarshal 3
          { enabled := true, functionTracer := tracerFresh }).map Prod.fst
        = some (marshalOrError jsonMarshal
            (.node "r()".toList "r()".toList 0 0 0 MaxInt32 0 []))
    ∧ (telemetryOneCall.GetMetricsJSON jsonMarshal 3
          { enabled := true, functionTracer := tracerTwoTraces }).map Prod.fst
        = some (marshalOrError jsonMarshal tracerTwoTracesSnapshot)
    ∧ (snapshot 3 telemetryOneCall.functionTracer).map Prod.fst
        = some (.node "r()".toList "r()".toList 0 0 0 MaxInt32 0
            [.node "r()".toList "A()T".toList 1 10 0 10 10 []])
    ∧ SnapshotTree.Children (.node "r()".toList "r()".toList 0 0 0 MaxInt32 0 []) = []
    ∧ (SnapshotTree.Children tracerTwoTracesSnapshot).length = 2 :=
  ⟨fun _ _ _ _ => rfl, rfl, rfl, rfl, rfl, rfl⟩

end telemetry

namespace metric_types

open metrics

theorem mapGet_mapSet_self (m : List (GoString × GoValue)) (k : GoString) (v : GoValue) :
    mapGet (mapSet m k v) k = some v := by
  induction m with
  | nil => simp [mapSet, mapGet]
  | cons kv rest ih =>
    obtain ⟨k1, v1⟩ := kv
    by_cases h : k1 = k
    · simp [mapSet, mapGet, h]
    · simp [mapSet, mapGet, h, ih]

/-- Claim C19, the code at the failing input: a metric `m` that exists and was reset with
`ResetMetric` (its value is `nil`, and `GetMetricValue` reports no error), and a metric
`b` that exists with a value of another Go type, both make `IncreaseMetric` and
`DecreaseMetric` return `MetricNotFound`, through the `default` branch of the type
switch.  When the name is absent, `MetricNotFound` is returned, as the claim says. -/
theorem IncreaseMetric_not_found_for_present_metric :
    (∀ (c : MetricSet) (name : GoString) (v : GoValue), mapGet c.metrics name = none →
        c.IncreaseMetric name v = (some (.MetricNotFound name), c)
          ∧ c.DecreaseMetric name v = (some (.MetricNotFound name), c))
    ∧ (MetricSet.ResetMetric { metrics := [("m".toList, .int 5)] } "m".toList)
        = (none, { metrics := [("m".toList, .nil)] })
    ∧ MetricSet.GetMetricValue { metrics := [("m".toList, .nil)] } "m".toList = (.nil, none)
    ∧ MetricSet.IncreaseMetric { metrics := [("m".toList, .nil)] } "m".toList (.int 1)
        = (some (.MetricNotFound "m".toList), { metrics := [("m".toList, .nil)] })
    ∧ MetricSet.DecreaseMetric { metrics := [("m".toList, .nil)] } "m".toList (.int 1)
        = (some (.MetricNotFound "m".toList), { metrics := [("m".toList, .nil)] })
    ∧ MetricSet.IncreaseMetric { metrics := [("b".toList, .other 0)] } "b".toList (.int 1)
        = (some (.MetricNotFound "b".toList), { metrics := [("b".toList, .other 0)] })
    ∧ MetricSet.DecreaseMetric { metrics := [("b".toList, .other 0)] } "b".toList (.int 1)
        = (some (.MetricNotFound "b".toList), { metrics := [("b".toList, .other 0)] }) := by
  refine ⟨?_, by decide, by decide, by decide, by decide, by decide, by decide⟩
  intro c name v h
  constructor
  · unfold MetricSet.IncreaseMetric; rw [h]
  · unfold MetricSet.DecreaseMetric; rw [h]

end metric_types

namespace metrics

/-- Claim C20, the code at the failing input: on the integer counter `c`,
`SetMetric("c", "hello")` returns no error and stores the string; `SetMetricValue` only
checks that the name exists.  The other parts of the claim hold: a missing name gives
`MetricNotFound` and leaves the store unchanged, and after a call without error
`ReadMetric` returns the value that was set. -/
theorem SetMetric_accepts_value_of_another_type :
    Metrics.SetMetric (NewMetrics [("c".toList, .int 5)]) "c".toList (.string "hello".toList)
        = (none, { metricData := { metrics := [("c".toList, .string "hello".toList)] } })
    ∧ (∀ (m : Metrics) (name : GoString) (v : metric_types.GoValue),
        metric_types.mapGet m.metricData.metrics name = none →
          m.SetMetric name v = (some (.MetricNotFound name), m))
    ∧ (∀ (m : Metrics) (name : GoString) (v : metric_types.GoValue),
        (m.SetMetric name v).1 = none → (m.SetMetric name v).2.ReadMetric name = (v, none)) := by
  refine ⟨by decide, ?_, ?_⟩
  · intro m name v h
    unfold Metrics.SetMetric metric_types.MetricSet.SetMetricValue
    rw [h]
  · intro m name v h
    unfold Metrics.SetMetric metric_types.MetricSet.SetMetricValue at h ⊢
    cases hg : metric_types.mapGet m.metricData.metrics name with
    | none => simp [hg] at h
    | some old =>
      simp only [Metrics.ReadMetric, metric_types.MetricSet.GetMetricValue,
        metric_types.mapGet_mapSet_self]

end metrics

namespace metric_types

open metrics

theorem mapGet_mapSet_ne (m : List (GoString × GoValue)) (k k2 : GoString) (v : GoValue)
    (hne : k2 ≠ k) : mapGet (mapSet m k v) k2 = mapGet m k2 := by
  induction m with
  | nil =>
    have : ¬ k = k2 := fun h => hne h.symm
    simp [mapSet, mapGet, this]
  | cons kv rest ih =>
    obtain ⟨k1, v1⟩ := kv
    by_cases h : k1 = k
    · have h2 : ¬ k = k2 := fun h3 => hne h3.symm
      have h3 : ¬ k1 = k2 := fun h4 => hne (h4.symm.trans h)
      simp [mapSet, mapGet, h, h2]
    · by_cases h6 : k1 = k2
      · subst h6
        simp [mapSet, mapGet, h]
      · simp [mapSet, mapGet, h, h6, ih]

theorem mapSet_keys (m : List (GoString × GoValue)) (k : GoString) (old v : GoValue)
    (h : mapGet m k = some old) : (mapSet m k v).map Prod.fst = m.map Prod.fst := by
  induction m with
  | nil => simp [mapGet] at h
  | cons kv rest ih =>
    obtain ⟨k1, v1⟩ := kv
    by_cases hk : k1 = k
    · simp [mapSet, hk]
    · simp only [mapGet, hk, if_false] at h
      simp [mapSet, hk, ih h]

theorem mapSet_mapSet (m : List (GoString × GoValue)) (k : GoString) (a b : GoValue) :
    mapSet (mapSet m k a) k b = mapSet m k b := by
  induction m with
  | nil => simp [mapSet]
  | cons kv rest ih =>
    obtain ⟨k1, v1⟩ := kv
    by_cases hk : k1 = k
    · simp [mapSet, hk]
    · simp [mapSet, hk, ih]

theorem mapSet_of_mapGet (m : List (GoString × GoValue)) (k : GoString) (v : GoValue)
    (h : mapGet m k = some v) : mapSet m k v = m := by
  induction m with
  | nil => simp [mapGet] at h
  | cons kv rest ih =>
    obtain ⟨k1, v1⟩ := kv
    by_cases hk : k1 = k
    · simp only [mapGet, hk, if_true, Option.some.injEq] at h
      simp [mapSet, hk, h]
    · simp only [mapGet, hk, if_false] at h
      simp [mapSet, hk, ih h]

theorem wrapInt_add_sub (v i : Int) (h0 : -9223372036854775808 ≤ v)
    (h1 : v < 9223372036854775808) : wrapInt (wrapInt (v + i) - i) = v := by
  unfold wrapInt
  omega

/-- Claim C21: for an existing metric, `IncreaseMetric` on a `time.Time` value and
`DecreaseMetric` on a `string` or `time.Time` value return `MetricInvalidOperation`;
`IncreaseMetric` or `DecreaseMetric` on an `int` or `float64` value (and `IncreaseMetric`
on a `string` value) with an operand of another type return `MetricInvalidType` naming
the metric; and these two kinds of error are returned in no other case. -/
theorem metric_error_kinds (c : MetricSet) (name : GoString) (v : GoValue) :
    (∀ x, mapGet c.metrics name = some (.time x) →
        (c.IncreaseMetric name v).1
            = some (.MetricInvalidOperation name timeStr incMetricFnName)
          ∧ (c.DecreaseMetric name v).1
            = some (.MetricInvalidOperation name timeStr decMetricFnName))
    ∧ (∀ s, mapGet c.metrics name = some (.string s) →
        (c.DecreaseMetric name v).1
          = some (.MetricInvalidOperation name stringStr decMetricFnName))
    ∧ (∀ x, mapGet c.metrics name = some (.int x) → (∀ i, v ≠ .int i) →
        (c.IncreaseMetric name v).1 = some (.MetricInvalidType name integerStr)
          ∧ (c.DecreaseMetric name v).1 = some (.MetricInvalidType name integerStr))
    ∧ (∀ x, mapGet c.metrics name = some (.float64 x) → (∀ i, v ≠ .float64 i) →
        (c.IncreaseMetric name v).1 = some (.MetricInvalidType name floatStr)
          ∧ (c.DecreaseMetric name v).1 = some (.MetricInvalidType name floatStr))
    ∧ (∀ s, mapGet c.metrics name = some (.string s) → (∀ t, v ≠ .string t) →
        (c.IncreaseMetric name v).1 = some (.MetricInvalidType name stringStr))
    ∧ (∀ a b o, (c.IncreaseMetric name v).1 = some (.MetricInvalidOperation a b o) →
        a = name ∧ ∃ x, mapGet c.metrics name = some (.time x))
    ∧ (∀ a b o, (c.DecreaseMetric name v).1 = some (.MetricInvalidOperation a b o) →
        a = name ∧ ((∃ x, mapGet c.metrics name = some (.time x))
          ∨ ∃ s, mapGet c.metrics name = some (.string s)))
    ∧ (∀ a b, (c.IncreaseMetric name v).1 = some (.MetricInvalidType a b) →
        a = name ∧ ((∃ x, mapGet c.metrics name = some (.int x) ∧ ∀ i, v ≠ .int i)
          ∨ (∃ x, mapGet c.metrics name = some (.float64 x) ∧ ∀ i, v ≠ .float64 i)
          ∨ ∃ s, mapGet c.metrics name = some (.string s) ∧ ∀ t, v ≠ .string t))
    ∧ (∀ a b, (c.DecreaseMetric name v).1 = some (.MetricInvalidType a b) →
        a = name ∧ ((∃ x, mapGet c.metrics name = some (.int x) ∧ ∀ i, v ≠ .int i)
          ∨ ∃ x, mapGet c.metrics name = some (.float64 x) ∧ ∀ i, v ≠ .float64 i)) := by
  refine ⟨?_, ?_, ?_, ?_, ?_, ?_, ?_, ?_, ?_⟩
  · intro x h
    unfold MetricSet.IncreaseMetric MetricSet.DecreaseMetric
    rw [h]
    exact ⟨rfl, rfl⟩
  · intro s h
    unfold MetricSet.DecreaseMetric
    rw [h]
  · intro x h hv
    unfold MetricSet.IncreaseMetric MetricSet.DecreaseMetric
    rw [h]
    cases v <;> first | exact ⟨rfl, rfl⟩ | exact absurd rfl (hv _)
  · intro x h hv
    unfold MetricSet.IncreaseMetric MetricSet.DecreaseMetric
    rw [h]
    cases v <;> first | exact ⟨rfl, rfl⟩ | exact absurd rfl (hv _)
  · intro s h hv
    unfold MetricSet.IncreaseMetric
    rw [h]
    cases v <;> first | rfl | exact absurd rfl (hv _)
  · intro a b o h
    unfold MetricSet.IncreaseMetric at h
    cases hg : mapGet c.metrics name with
    | none => simp [hg] at h
    | some cur =>
      rw [hg] at h
      cases cur <;> cases v <;> simp at h <;> simp [h]
  · intro a b o h
    unfold MetricSet.DecreaseMetric at h
    cases hg : mapGet c.metrics name with
    | none => simp [hg] at h
    | some cur =>
      rw [hg] at h
      cases cur <;> cases v <;> simp at h <;> simp [h]
  · intro a b h
    unfold MetricSet.IncreaseMetric at h
    cases hg : mapGet c.metrics name with
    | none => simp [hg] at h
    | some cur =>
      rw [hg] at h
      cases cur <;> cases v <;> simp at h <;> simp [h]
  · intro a b h
    unfold MetricSet.DecreaseMetric at h
    cases hg : mapGet c.metrics name with
    | none => simp [hg] at h
    | some cur =>
      rw [hg] at h
      cases cur <;> cases v <;> simp at h <;> simp [h]

theorem wrapInt_spec (x : Int) :
    -9223372036854775808 ≤ wrapInt x ∧ wrapInt x < 9223372036854775808
      ∧ (wrapInt x - x) % 18446744073709551616 = 0
      ∧ (-9223372036854775808 ≤ x → x < 9223372036854775808 → wrapInt x = x)
      ∧ (9223372036854775808 ≤ x → x < 27670116110564327424 →
          wrapInt x = x - 18446744073709551616)
      ∧ (x < -9223372036854775808 → -27670116110564327424 ≤ x →
          wrapInt x = x + 18446744073709551616) := by
  unfold wrapInt
  refine ⟨?_, ?_, ?_, ?_, ?_, ?_⟩
  · omega
  · omega
  · omega
  · intro h0 h1; omega
  · intro h0 h1; omega
  · intro h0 h1; omega

/-- Claim C22: when `name` holds the `int` `v`, `IncreaseMetric(name, i)` with an `int`
`i` returns no error and leaves `name` holding the machine sum of `v` and `i`: the 64-bit
value congruent to `v + i` modulo `2^64`, which is `v + i` itself when that fits in 64
bits, `v + i - 2^64` when it overflows upwards and `v + i + 2^64` when it overflows
downwards; every other metric is unchanged.  `DecreaseMetric(name, i)` leaves the machine
difference `v - i` in the same sense.  Increasing and then decreasing by the same `i`
gives back the original set, and on a `string` metric `IncreaseMetric` appends the
increment to the stored string. -/
theorem IncreaseMetric_DecreaseMetric_on_int (c : MetricSet) (name : GoString) (v i : Int)
    (hv : mapGet c.metrics name = some (.int v))
    (h0 : -9223372036854775808 ≤ v) (h1 : v < 9223372036854775808) :
    (c.IncreaseMetric name (.int i)).1 = none
    ∧ (∃ w : Int, mapGet (c.IncreaseMetric name (.int i)).2.metrics name = some (.int w)
        ∧ -9223372036854775808 ≤ w ∧ w < 9223372036854775808
        ∧ (w - (v + i)) % 18446744073709551616 = 0
        ∧ (-9223372036854775808 ≤ v + i → v + i < 9223372036854775808 → w = v + i)
        ∧ (9223372036854775808 ≤ v + i → v + i < 27670116110564327424 →
            w = v + i - 18446744073709551616)
        ∧ (v + i < -9223372036854775808 → -27670116110564327424 ≤ v + i →
            w = v + i + 18446744073709551616))
    ∧ (∀ other, other ≠ name →
        mapGet (c.IncreaseMetric name (.int i)).2.metrics other = mapGet c.metrics other)
    ∧ (c.DecreaseMetric name (.int i)).1 = none
    ∧ (∃ w : Int, mapGet (c.DecreaseMetric name (.int i)).2.metrics name = some (.int w)
        ∧ -9223372036854775808 ≤ w ∧ w < 9223372036854775808
        ∧ (w - (v - i)) % 18446744073709551616 = 0
        ∧ (-9223372036854775808 ≤ v - i → v - i < 9223372036854775808 → w = v - i)
        ∧ (9223372036854775808 ≤ v - i → v - i < 27670116110564327424 →
            w = v - i - 18446744073709551616)
        ∧ (v - i < -9223372036854775808 → -27670116110564327424 ≤ v - i →
            w = v - i + 18446744073709551616))
    ∧ (∀ other, other ≠ name →
        mapGet (c.DecreaseMetric name (.int i)).2.metrics other = mapGet c.metrics other)
    ∧ (c.IncreaseMetric name (.int i)).2.DecreaseMetric name (.int i) = (none, c)
    ∧ (∀ (c2 : MetricSet) (s t : GoString), mapGet c2.metrics name = some (.string s) →
        (c2.IncreaseMetric name (.string t)).1 = none
          ∧ mapGet (c2.IncreaseMetric name (.string t)).2.metrics name
              = some (.string (s ++ t))
          ∧ ∀ other, other ≠ name →
              mapGet (c2.IncreaseMetric name (.string t)).2.metrics other
                = mapGet c2.metrics other) := by
  have hinc : c.IncreaseMetric name (.int i)
      = (none, { metrics := mapSet c.metrics name (.int (wrapInt (v + i))) }) := by
    unfold MetricSet.IncreaseMetric; rw [hv]
  have hdec : c.DecreaseMetric name (.int i)
      = (none, { metrics := mapSet c.metrics name (.int (wrapInt (v - i))) }) := by
    unfold MetricSet.DecreaseMetric; rw [hv]
  refine ⟨by rw [hinc], ?_, ?_, by rw [hdec], ?_, ?_, ?_, ?_⟩
  · exact ⟨wrapInt (v + i), by rw [hinc]; exact mapGet_mapSet_self _ _ _,
      wrapInt_spec (v + i)⟩
  · intro other hne
    rw [hinc]; exact mapGet_mapSet_ne _ _ _ _ hne
  · exact ⟨wrapInt (v - i), by rw [hdec]; exact mapGet_mapSet_self _ _ _,
      wrapInt_spec (v - i)⟩
  · intro other hne
    rw [hdec]; exact mapGet_mapSet_ne _ _ _ _ hne
  · rw [hinc]
    unfold MetricSet.DecreaseMetric
    simp only [mapGet_mapSet_self, mapSet_mapSet, wrapInt_add_sub v i h0 h1,
      mapSet_of_mapGet _ _ _ hv]
  · intro c2 s t hs
    have hinc2 : c2.IncreaseMetric name (.string t)
        = (none, { metrics := mapSet c2.metrics name (.string (s ++ t)) }) := by
      unfold MetricSet.IncreaseMetric; rw [hs]
    refine ⟨by rw [hinc2], by rw [hinc2]; exact mapGet_mapSet_self _ _ _, ?_⟩
    intro other hne
    rw [hinc2]; exact mapGet_mapSet_ne _ _ _ _ hne

/-- Witness for C22: the counter `c` holding the largest `int`, `2^63 - 1`.  Increased by
1 it holds a 64-bit value equal to `2^63 - 1 + 1 - 2^64`, the smallest `int` (the sum
wraps); decreased by 1 again it holds the largest `int` again. -/
theorem IncreaseMetric_DecreaseMetric_on_int_witness :
    (∃ w : Int,
        mapGet (MetricSet.IncreaseMetric
            { metrics := [("c".toList, .int 9223372036854775807)] }
            "c".toList (.int 1)).2.metrics "c".toList = some (.int w)
          ∧ w = -9223372036854775808)
    ∧ MetricSet.DecreaseMetric
        (MetricSet.IncreaseMetric { metrics := [("c".toList, .int 9223372036854775807)] }
          "c".toList (.int 1)).2 "c".toList (.int 1)
      = (none, { metrics := [("c".toList, .int 9223372036854775807)] }) :=
  ⟨(IncreaseMetric_DecreaseMetric_on_int
      { metrics := [("c".toList, .int 9223372036854775807)] } "c".toList
      9223372036854775807 1 (by decide) (by decide) (by decide)).2.1.elim
      (fun w hw => ⟨w, hw.1, by
        have h := hw.2.2.2.2.2.1 (by decide) (by decide)
        rw [h]; decide⟩),
   (IncreaseMetric_DecreaseMetric_on_int
      { metrics := [("c".toList, .int 9223372036854775807)] } "c".toList
      9223372036854775807 1 (by decide) (by decide) (by decide)).2.2.2.2.2.2.1⟩

/-- Claim C26: whenever `IncreaseMetric`, `DecreaseMetric`, `ResetMetric` or
`SetMetricValue` returns an error, the set is exactly what it was before the call
(`GetMetricValue` never writes); and a call that returns no error leaves the value of
every other name as it was and leaves the list of metric names as it was. -/
theorem metric_store_error_atomicity (c : MetricSet) (name : GoString) (v : GoValue) :
    ((c.IncreaseMetric name v).1 ≠ none → (c.IncreaseMetric name v).2 = c)
    ∧ ((c.DecreaseMetric name v).1 ≠ none → (c.DecreaseMetric name v).2 = c)
    ∧ ((c.ResetMetric name).1 ≠ none → (c.ResetMetric name).2 = c)
    ∧ ((c.SetMetricValue name v).1 ≠ none → (c.SetMetricValue name v).2 = c)
    ∧ ((c.GetMetricValue name).2 ≠ none → mapGet c.metrics name = none)
    ∧ ((c.IncreaseMetric name v).1 = none →
        (∀ other, other ≠ name →
          mapGet (c.IncreaseMetric name v).2.metrics other = mapGet c.metrics other)
        ∧ (c.IncreaseMetric name v).2.metrics.map Prod.fst = c.metrics.map Prod.fst)
    ∧ ((c.DecreaseMetric name v).1 = none →
        (∀ other, other ≠ name →
          mapGet (c.DecreaseMetric name v).2.metrics other = mapGet c.metrics other)
        ∧ (c.DecreaseMetric name v).2.metrics.map Prod.fst = c.metrics.map Prod.fst)
    ∧ ((c.ResetMetric name).1 = none →
        (∀ other, other ≠ name →
          mapGet (c.ResetMetric name).2.metrics other = mapGet c.metrics other)
        ∧ (c.ResetMetric name).2.metrics.map Prod.fst = c.metrics.map Prod.fst)
    ∧ ((c.SetMetricValue name v).1 = none →
        (∀ other, other ≠ name →
          mapGet (c.SetMetricValue name v).2.metrics other = mapGet c.metrics other)
        ∧ (c.SetMetricValue name v).2.metrics.map Prod.fst = c.metrics.map Prod.fst) := by
  cases hg : mapGet c.metrics name with
  | none =>
    unfold MetricSet.IncreaseMetric MetricSet.DecreaseMetric MetricSet.ResetMetric
      MetricSet.SetMetricValue MetricSet.GetMetricValue
    simp [hg]
  | some cur =>
    have key : ∀ w, (∀ other, other ≠ name →
          mapGet (mapSet c.metrics name w) other = mapGet c.metrics other)
        ∧ (mapSet c.metrics name w).map Prod.fst = c.metrics.map Prod.fst :=
      fun w => ⟨fun other hne => mapGet_mapSet_ne _ _ _ _ hne, mapSet_keys _ _ cur w hg⟩
    unfold MetricSet.IncreaseMetric MetricSet.DecreaseMetric MetricSet.ResetMetric
      MetricSet.SetMetricValue MetricSet.GetMetricValue
    rw [hg]
    refine ⟨?_, ?_, ?_, ?_, ?_, ?_, ?_, ?_, ?_⟩
    · cases cur <;> cases v <;> simp
    · cases cur <;> cases v <;> simp
    · simp
    · simp
    · simp
    · cases cur <;> cases v <;> simp <;> exact key _
    · cases cur <;> cases v <;> simp <;> exact key _
    · intro _; exact key _
    · intro _; exact key _

end metric_types

namespace metrics

/-- Claim C24, the code at the failing input: for the method name of the comment on
`FunctionName`, `GetName` of the qualified name stops at the `)` that closes the
receiver and `GetSuffix` returns the rest of the name together with the trace id.  For a
name without `)` the two functions do split name and trace id, and for every string
`GetName s ++ GetSuffix s = s` (both are total: the cut index is between 0 and the
length). -/
theorem GetName_GetSuffix_of_method_name :
    GetName ("rdlabs.hpecorp.net/restlib/table.(*RowGetter).GetRows".toList
        ++ "()".toList ++ "T1".toList)
      = "rdlabs.hpecorp.net/restlib/table.(*RowGetter)".toList
    ∧ GetSuffix ("rdlabs.hpecorp.net/restlib/table.(*RowGetter).GetRows".toList
        ++ "()".toList ++ "T1".toList)
      = ".GetRows()T1".toList
    ∧ (∀ f t : GoString, ')' ∉ f →
        GetName (f ++ "()".toList ++ t) = f ++ "()".toList
          ∧ GetSuffix (f ++ "()".toList ++ t) = t)
    ∧ (∀ s : GoString, GetName s ++ GetSuffix s = s)
    ∧ (∀ s : GoString, 0 ≤ stringsIndex s ')' + 1
        ∧ (stringsIndex s ')' + 1).toNat ≤ s.length) := by
  refine ⟨by decide, by decide, ?_, GetName_append_GetSuffix, ?_⟩
  · intro f t hf
    have hnot : ')' ∉ f ++ ['('] := by
      simp only [List.mem_append, List.mem_singleton, not_or]
      exact ⟨hf, by decide⟩
    have heq : f ++ "()".toList ++ t = (f ++ ['(']) ++ ')' :: t := by
      show f ++ ['(', ')'] ++ t = (f ++ ['(']) ++ ')' :: t
      simp
    have heq2 : f ++ "()".toList = (f ++ ['(']) ++ [')'] := by
      show f ++ ['(', ')'] = (f ++ ['(']) ++ [')']
      simp
    rw [heq, heq2]
    exact ⟨GetName_append_cons _ _ hnot, GetSuffix_append_cons _ _ hnot⟩
  · intro s
    unfold stringsIndex
    split
    · rename_i h
      constructor
      · omega
      · omega
    · simp

/-! ### The shape of the table -/

theorem Reachable_TableShape (ft : FunctionTracer) (hr : Reachable ft) : TableShape ft := by
  induction hr with
  | new => intro k v h; simp [NewFunctionTracer, mapLookup] at h
  | setRoot ft root _ ih => exact ih
  | clear ft _ ih => intro k v h; simp [Clear, mapLookup] at h
  | increase ft p f e _ ih =>
    intro k v hl
    by_cases hk : k = GetName p
    · subst hk
      rw [IncreaseFunctionTracer_lookup_self] at hl
      injection hl with hl
      rw [IncreaseFunctionTracer_heap]
      cases h2 : mapLookup ft.metrics (GetName p) with
      | none =>
        rw [h2] at hl
        subst hl
        refine ⟨rfl, GetName_GetName p, ?_⟩
        intro q hq
        have hq2 : q = ft.heap.length := by simpa [freshDTO] using hq
        subst hq2
        exact ⟨newFunctionMetrics (GetName p) f e, by simp,
          (newFunctionMetrics_fields _ _ _).1⟩
      | some old =>
        rw [h2] at hl
        obtain ⟨hold, hname, hptr⟩ := ih _ _ h2
        subst hl
        refine ⟨?_, hname, ?_⟩
        · simp only [Option.getD_some]
          rw [hold]
        · intro q hq
          simp only [Option.getD_some, List.mem_append, List.mem_singleton] at hq
          rcases hq with hq | hq
          · obtain ⟨m, hm, hpar⟩ := hptr q hq
            have hlt : q < ft.heap.length := (List.getElem?_eq_some.1 hm).1
            exact ⟨m, by rw [List.getElem?_append_left hlt]; exact hm, hpar⟩
          · subst hq
            exact ⟨newFunctionMetrics (GetName p) f e, by simp,
              (newFunctionMetrics_fields _ _ _).1⟩
    · rw [IncreaseFunctionTracer_lookup_ne _ _ _ _ _ hk] at hl
      obtain ⟨hold, hname, hptr⟩ := ih _ _ hl
      refine ⟨hold, hname, ?_⟩
      intro q hq
      obtain ⟨m, hm, hpar⟩ := hptr q hq
      have hlt : q < ft.heap.length := (List.getElem?_eq_some.1 hm).1
      rw [IncreaseFunctionTracer_heap]
      exact ⟨m, by rw [List.getElem?_append_left hlt]; exact hm, hpar⟩
  | getMetrics ft ft1 fuel d _ hrun ih =>
    obtain ⟨hs, _, hm⟩ := GetFunctionTracerMetrics_skel fuel ft ft1 d hrun
    intro k v hl
    rw [hm] at hl
    obtain ⟨hold, hname, hptr⟩ := ih _ _ hl
    refine ⟨hold, hname, ?_⟩
    intro q hq
    obtain ⟨m, hmq, hpar⟩ := hptr q hq
    rcases static_cases hs q with ⟨_, e2⟩ | ⟨a, b, e1, e2, e3⟩
    · rw [e2] at hmq; cases hmq
    · rw [e2] at hmq
      injection hmq with hmq
      subst hmq
      refine ⟨a, e1, ?_⟩
      have : (stripChildren a).Parent = (stripChildren b).Parent := by rw [e3]
      exact this.trans hpar

/-- Claim C23: in every tracer state reachable from `NewFunctionTracer` through
`SetRoot`, `IncreaseFunctionTracer`, `Clear` and `GetFunctionTracerMetrics`, the entry
stored under a key `k` has `Parent = Function = k`, `Calls = 0`, `TotalTimeMs = 0`,
`LowerCeiling = 2^31-1` and `HigherCeiling = 0`; `k` carries no trace suffix
(`GetName k = k`); every address in its children slice is allocated; and every record in
its children list has `Parent = k`. -/
theorem reachable_table_entry_is_a_container (ft : FunctionTracer) (hr : Reachable ft)
    (k : GoString) (v : FunctionTracerMetricsDTO) (hl : mapLookup ft.metrics k = some v) :
    v.Parent = k ∧ v.Function = k ∧ v.Calls = 0 ∧ v.TotalTimeMs = 0
      ∧ v.LowerCeiling = 2147483647 ∧ v.HigherCeiling = 0
      ∧ GetName k = k ∧ GetSuffix k = []
      ∧ (childRecords ft k).length = v.Children.length
      ∧ ∀ r ∈ childRecords ft k, r.Parent = k := by
  obtain ⟨hold, hname, hptr⟩ := Reachable_TableShape ft hr k v hl
  have hsuf : GetSuffix k = [] := by
    have := GetSuffix_GetName k
    rw [hname] at this
    exact this
  have hrec : childRecords ft k = v.Children.filterMap (fun p => ft.heap[p]?) := by
    unfold childRecords; rw [hl]
  have hlen : ∀ ps : List Ptr, (∀ p ∈ ps, ∃ m, ft.heap[p]? = some m ∧ m.Parent = k) →
      (ps.filterMap (fun p => ft.heap[p]?)).length = ps.length := by
    intro ps
    induction ps with
    | nil => intro _; rfl
    | cons p rest ih =>
      intro hall
      obtain ⟨m, hm, _⟩ := hall p (by simp)
      simp only [List.filterMap_cons, hm, List.length_cons]
      rw [ih (fun q hq => hall q (by simp [hq]))]
  refine ⟨congrArg (fun x => x.Parent) hold, congrArg (fun x => x.Function) hold,
    congrArg (fun x => x.Calls) hold, congrArg (fun x => x.TotalTimeMs) hold,
    congrArg (fun x => x.LowerCeiling) hold, congrArg (fun x => x.HigherCeiling) hold,
    hname, hsuf, ?_, ?_⟩
  · rw [hrec]; exact hlen _ hptr
  · intro r hrm
    rw [hrec] at hrm
    obtain ⟨p, hp, hpr⟩ := List.mem_filterMap.1 hrm
    obtain ⟨m, hm, hpar⟩ := hptr p hp
    rw [hm] at hpr
    injection hpr with hpr
    rw [← hpr]; exact hpar

/-- Witness for C23: the entry `A()` of the tracer holding two traces, which received
two observations. -/
theorem reachable_table_entry_is_a_container_witness :
    GetName "A()".toList = "A()".toList ∧ GetSuffix "A()".toList = []
      ∧ (childRecords tracerTwoTraces "A()".toList).length
          = (FunctionTracerMetricsDTO.Children
              { freshDTO "A()".toList "A()".toList with Children := [0, 2] }).length
      ∧ ∀ r ∈ childRecords tracerTwoTraces "A()".toList, r.Parent = "A()".toList :=
  (reachable_table_entry_is_a_container tracerTwoTraces
    (Reachable.increase _ _ _ _ (Reachable.increase _ _ _ _ (Reachable.increase _ _ _ _
      (Reachable.increase _ _ _ _ (Reachable.setRoot _ _ Reachable.new)))))
    "A()".toList { freshDTO "A()".toList "A()".toList with Children := [0, 2] }
    (by decide)).2.2.2.2.2.2

/-! ### Children are attributed per function key -/

theorem optionMapList_mono {α β : Type} (f g : α → Option β) (l : List α)
    (h : ∀ a ∈ l, ∀ b, f a = some b → g a = some b) :
    ∀ bs, optionMapList f l = some bs → optionMapList g l = some bs := by
  induction l with
  | nil => intro bs hbs; exact hbs
  | cons a as ih =>
    intro bs hbs
    unfold optionMapList at hbs ⊢
    cases hfa : f a with
    | none => simp [hfa] at hbs
    | some b =>
      simp only [hfa] at hbs
      rw [h a (by simp) b hfa]
      cases hrest : optionMapList f as with
      | none => simp [hrest] at hbs
      | some bs2 =>
        simp only [hrest] at hbs
        rw [ih (fun c hc => h c (by simp [hc])) bs2 hrest]
        exact hbs

theorem optionMapList_map {α β γ : Type} (f : α → Option β) (g : β → γ) (g2 : α → γ)
    (l : List α) (h : ∀ a b, f a = some b → g b = g2 a) :
    ∀ bs, optionMapList f l = some bs → bs.map g = l.map g2 := by
  induction l with
  | nil =>
    intro bs hbs
    simp only [optionMapList, Option.some.injEq] at hbs
    subst hbs; rfl
  | cons a as ih =>
    intro bs hbs
    unfold optionMapList at hbs
    cases hfa : f a with
    | none => simp [hfa] at hbs
    | some b =>
      simp only [hfa] at hbs
      cases hrest : optionMapList f as with
      | none => simp [hrest] at hbs
      | some bs2 =>
        simp only [hrest, Option.some.injEq] at hbs
        subst hbs
        simp only [List.map_cons, h a b hfa, ih bs2 hrest]

theorem pureKids_succ_of_some (R : GoString)
    (tbl : List (GoString × FunctionTracerMetricsDTO)) (h : Heap) (n : Nat) :
    ∀ (key call : GoString) (ts : List SnapshotTree),
      pureKids R tbl h n key call = some ts → pureKids R tbl h (n + 1) key call = some ts := by
  induction n with
  | zero => intro key call ts hp; simp [pureKids] at hp
  | succ n ih =>
    intro key call ts hp
    rw [pureKids_succ] at hp ⊢
    apply optionMapList_mono _ _ _ _ ts hp
    intro p _ b hb
    cases hm : h[p]? with
    | none => simp [hm] at hb
    | some m =>
      simp only [hm] at hb ⊢
      cases hk : pureKids R tbl h n (childInMap m) m.Function with
      | none => simp [hk] at hb
      | some ts2 =>
        rw [ih _ _ ts2 hk]
        rw [hk] at hb
        exact hb

theorem pureKids_mono (R : GoString) (tbl : List (GoString × FunctionTracerMetricsDTO))
    (h : Heap) (n k : Nat) (key call : GoString) (ts : List SnapshotTree)
    (hp : pureKids R tbl h n key call = some ts) :
    pureKids R tbl h (n + k) key call = some ts := by
  induction k with
  | zero => exact hp
  | succ k ih => exact pureKids_succ_of_some R tbl h (n + k) key call ts ih

theorem pureKids_unique (R : GoString) (tbl : List (GoString × FunctionTracerMetricsDTO))
    (h : Heap) (n1 n2 : Nat) (key call : GoString) (ts1 ts2 : List SnapshotTree)
    (h1 : pureKids R tbl h n1 key call = some ts1)
    (h2 : pureKids R tbl h n2 key call = some ts2) : ts1 = ts2 := by
  have e1 := pureKids_mono R tbl h n1 n2 key call ts1 h1
  have e2 := pureKids_mono R tbl h n2 n1 key call ts2 h2
  rw [Nat.add_comm] at e2
  rw [e1] at e2
  injection e2

theorem pureKids_nodes_origin (R : GoString)
    (tbl : List (GoString × FunctionTracerMetricsDTO)) (h : Heap) (n : Nat) :
    ∀ (key call : GoString) (ts : List SnapshotTree),
      pureKids R tbl h n key call = some ts →
        ∀ t ∈ ts, ∀ d ∈ t.nodes, ∃ m ∈ h, ∃ n2 ts2, d = nodeOf m ts2 ∧
          pureKids R tbl h n2 (childInMap m) m.Function = some ts2 := by
  induction n with
  | zero => intro key call ts hp; simp [pureKids] at hp
  | succ n ih =>
    intro key call ts hp t ht d hd
    obtain ⟨child, p, m, ts2, _, _, hm, _, hk, rfl⟩ :=
      pureKids_elem R tbl h n key call ts hp t ht
    rw [nodes_nodeOf] at hd
    rcases List.mem_cons.1 hd with rfl | hd
    · exact ⟨m, List.getElem?_mem hm, n, ts2, rfl, hk⟩
    · obtain ⟨t2, ht2, hd2⟩ := (mem_nodesOfList ts2 d).1 hd
      exact ih _ _ ts2 hk t2 ht2 d hd2

theorem Reachable_heap_parent (ft : FunctionTracer) (hr : Reachable ft) :
    ∀ r ∈ ft.heap, GetSuffix r.Parent = [] := by
  induction hr with
  | new => intro r hr; simp [NewFunctionTracer] at hr
  | setRoot ft root _ ih => exact ih
  | increase ft p f e _ ih =>
    intro r hr
    rw [IncreaseFunctionTracer_heap] at hr
    rcases List.mem_append.1 hr with h1 | h1
    · exact ih r h1
    · have : r = newFunctionMetrics (GetName p) f e := by simpa using h1
      rw [this, (newFunctionMetrics_fields _ _ _).1]
      exact GetSuffix_GetName p
  | clear ft _ ih => exact ih
  | getMetrics ft ft1 fuel d _ hrun ih =>
    have hs := (GetFunctionTracerMetrics_skel fuel ft ft1 d hrun).1
    exact skel_forall_fields (fun r => GetSuffix r.Parent = [])
      (fun a b hab ha => by
        have hpar : (stripChildren a).Parent = (stripChildren b).Parent := by rw [hab]
        have hpar2 : a.Parent = b.Parent := hpar
        show GetSuffix b.Parent = []
        rw [← hpar2]; exact ha) hs ih

theorem Reachable_PointersValid (ft : FunctionTracer) (hr : Reachable ft) :
    PointersValid ft := by
  intro k v hl p hp
  obtain ⟨m, hm, _⟩ := (Reachable_TableShape ft hr k v hl).2.2 p hp
  exact (List.getElem?_eq_some.1 hm).1

/-- Claim C25: in a snapshot of a reachable tracer state, two nodes whose `Function` keys
are equal and different from the root have identical children lists, and that list shows
exactly the records stored under `GetName` of the key whose `Function` carries the key's
trace suffix, in stored order.  So one record can show more than once: after three
observations (the root called `A()` twice, one `A()` called `B()`) the snapshot has four
nodes below the root. -/
theorem snapshot_children_depend_on_function_key (ft : FunctionTracer) (hr : Reachable ft)
    (n : Nat) (t : SnapshotTree) (hs : (snapshot n ft).map Prod.fst = some t)
    (d1 d2 : SnapshotTree) (h1 : d1 ∈ t.nodes) (h2 : d2 ∈ t.nodes)
    (heq : d1.Function = d2.Function) (hne : d1.Function ≠ ft.root) :
    d1.Children = d2.Children
    ∧ d1.Children.map SnapshotTree.withoutChildren
        = ((childRecords ft (GetName d1.Function)).filter
            (fun m => decide (GetSuffix m.Function = GetSuffix d1.Function))).map
          (fun m => nodeOf m [])
    ∧ tracerCalledTwice.heap.length = 3
    ∧ (snapshot 3 tracerCalledTwice).map
        (fun r => (SnapshotTree.nodesOfList r.1.Children).length) = some 4 := by
  cases hsn : snapshot n ft with
  | none => simp [hsn] at hs
  | some r =>
    obtain ⟨t0, ft1⟩ := r
    simp only [hsn, Option.map_some', Option.some.injEq] at hs
    subst hs
    obtain ⟨ts, hp, ht, _, _, _⟩ := snapshot_sound n ft ft1 t0 hsn
    subst ht
    have hv := Reachable_PointersValid ft hr
    have hpar := Reachable_heap_parent ft hr
    have origin : ∀ d ∈ (nodeOf (freshDTO ft.root ft.root) ts).nodes, d.Function ≠ ft.root →
        ∃ m ∈ ft.heap, ∃ n2 ts2, d = nodeOf m ts2 ∧
          pureKids ft.root ft.metrics ft.heap n2 (childInMap m) m.Function = some ts2 := by
      intro d hd hdne
      rw [nodes_nodeOf] at hd
      rcases List.mem_cons.1 hd with rfl | hd
      · exact absurd rfl hdne
      · obtain ⟨t2, ht2, hd2⟩ := (mem_nodesOfList ts d).1 hd
        exact pureKids_nodes_origin _ _ _ n _ _ ts hp t2 ht2 d hd2
    have hkey : ∀ m ∈ ft.heap, childInMap m = GetName m.Function := by
      intro m hm
      unfold childInMap
      rw [hpar m hm]
      simp
    obtain ⟨m1, hm1, n1, ts1, rfl, hp1⟩ := origin d1 h1 hne
    obtain ⟨m2, hm2, n2, ts2, rfl, hp2⟩ := origin d2 h2 (by rw [← heq]; exact hne)
    have hf : m1.Function = m2.Function := heq
    rw [hkey m1 hm1] at hp1
    rw [hkey m2 hm2, ← hf] at hp2
    refine ⟨pureKids_unique _ _ _ n1 n2 _ _ ts1 ts2 hp1 hp2, ?_, by decide, by decide⟩
    cases n1 with
    | zero => simp [pureKids] at hp1
    | succ n1 =>
      rw [pureKids_childRecords ft hv] at hp1
      have hfil : (childRecords ft (GetName m1.Function)).filter
            (included ft.root m1.Function)
          = (childRecords ft (GetName m1.Function)).filter
            (fun m => decide (GetSuffix m.Function = GetSuffix m1.Function)) := by
        apply List.filter_congr
        intro m _
        have hne2 : m1.Function ≠ ft.root := hne
        simp [included, hne2]
      rw [hfil] at hp1
      exact optionMapList_map _ SnapshotTree.withoutChildren (fun m => nodeOf m []) _
        (by
          intro a b hab
          cases hk : pureKids ft.root ft.metrics ft.heap n1 (childInMap a) a.Function with
          | none => simp [hk] at hab
          | some ts3 =>
            simp only [hk, Option.map_some', Option.some.injEq] at hab
            rw [← hab]; rfl)
        ts1 hp1

/-- Witness for C25: the two nodes `A()T` of the snapshot of `tracerCalledTwice`, recorded
with 10 ms and with 12 ms, show the same child `B()T`. -/
theorem snapshot_children_depend_on_function_key_witness :
    SnapshotTree.Children
        (.node "r()".toList "A()T".toList 1 10 0 10 10
          [.node "A()".toList "B()T".toList 1 5 0 5 5 []])
      = SnapshotTree.Children
        (.node "r()".toList "A()T".toList 1 12 0 12 12
          [.node "A()".toList "B()T".toList 1 5 0 5 5 []]) :=
  (snapshot_children_depend_on_function_key tracerCalledTwice
    (Reachable.increase _ _ _ _ (Reachable.increase _ _ _ _ (Reachable.increase _ _ _ _
      (Reachable.setRoot _ _ Reachable.new))))
    3 tracerCalledTwiceSnapshot (by rfl) _ _
    (List.Mem.tail _ (List.Mem.head _))
    (List.Mem.tail _ (List.Mem.tail _ (List.Mem.tail _ (List.Mem.head _))))
    rfl (by decide)).1

end metrics
